import Mathlib

/-!
Shallow embedding of the distributed photo organizer daemon
(`src/daemon.py`, `src/peer_protocol.py`).

Modelling conventions:
- Python dicts become association lists over `Nat` keys (insertion order,
  unique keys), with lookup, assignment, and pop mirroring dict semantics.
- Python sets of small integers become strictly ascending `List Nat`
  values; CPython iterates sets of small ints in ascending slot order, so
  iteration over such a set is iteration over the ascending list.
- Opaque data (image hashes, file paths, file names, addresses) are
  numbers or lists of numbers; values the code reads from the filesystem
  (pixel counts, color counts, folder byte size) enter as parameters.
-/

namespace DPO

/-- Lookup in an association list, modelling Python `d[k]` / `d.get(k)`. -/
def getA {α : Type} : List (Nat × α) → Nat → Option α
  | [], _ => none
  | (k, v) :: t, i => if k = i then some v else getA t i

/-- Key membership, modelling Python `k in d`. -/
def hasA {α : Type} (c : List (Nat × α)) (i : Nat) : Bool := (getA c i).isSome

/-- Assignment `d[k] = v`: update in place when present, append otherwise. -/
def setA {α : Type} : List (Nat × α) → Nat → α → List (Nat × α)
  | [], i, v => [(i, v)]
  | (k, w) :: t, i, v => if k = i then (k, v) :: t else (k, w) :: setA t i v

/-- Mutation of the value under an existing key; no-op when the key is absent. -/
def modifyA {α : Type} : List (Nat × α) → Nat → (α → α) → List (Nat × α)
  | [], _, _ => []
  | (k, w) :: t, i, f => if k = i then (k, f w) :: t else (k, w) :: modifyA t i f

/-- Mutation of the value under a key as Python performs it, with `none`
modelling the `KeyError` raised when the key is absent. -/
def modifyAO {α : Type} (c : List (Nat × α)) (i : Nat) (f : α → α) :
    Option (List (Nat × α)) :=
  if hasA c i then some (modifyA c i f) else none

/-- Key list of a dict, in insertion order. -/
def keysA {α : Type} (c : List (Nat × α)) : List Nat := c.map Prod.fst

/-- Deletion `d.pop(k)` (the removed value is not needed by the model). -/
def popA {α : Type} (c : List (Nat × α)) (i : Nat) : List (Nat × α) :=
  c.filter (fun p => p.1 != i)

/-- Strictly ascending list: the canonical form used for Python sets of ints. -/
def canonS (l : List Nat) : Prop := l.Pairwise (· < ·)

/-- Python `set.add`, keeping the ascending canonical form. -/
def insSet (h : Nat) : List Nat → List Nat
  | [] => [h]
  | b :: t => if h < b then h :: b :: t else if h = b then b :: t else b :: insSet h t

/-- Python `set.discard`. -/
def eraseS (h : Nat) (l : List Nat) : List Nat := l.filter (fun x => x != h)

/-- Elementwise addition of a batch of elements (a `for` loop of `set.add`). -/
def addAllS (base extra : List Nat) : List Nat :=
  extra.foldl (fun acc h => insSet h acc) base

/-- Elementwise removal of a batch of elements (a `for` loop of `set.discard`). -/
def removeAllS (base rem : List Nat) : List Nat :=
  rem.foldl (fun acc h => eraseS h acc) base

/-- Record stored per peer id in `_net_info` (daemon.py line 24): address,
set of image hashes held, folder size in bytes. -/
structure Entry where
  addr : List Nat
  hashes : List Nat
  size : Nat
deriving DecidableEq

/-- Default record the catalog mutators create for an unseen id
(daemon.py lines 268, 276, 293). -/
def defaultEntry : Entry := { addr := [], hashes := [], size := 0 }

/-- Network catalog `_net_info`: a dict from peer id to its record. -/
abbrev Catalog := List (Nat × Entry)

/-- Daemon.getIds (line 263): `set(self._net_info.keys())`, iterated in
ascending order as CPython iterates a set of small ints. -/
def getIds (c : Catalog) : List Nat := addAllS [] (keysA c)

/-- Shared shape of the three mutators setAddr/addHash/setSize: create a
default record when the id is unseen, then mutate one field in place. -/
def touchA (c : Catalog) (id : Nat) (f : Entry → Entry) : Catalog :=
  modifyA (if hasA c id then c else setA c id defaultEntry) id f

/-- Daemon.setAddr (lines 266-269). -/
def setAddr (c : Catalog) (id : Nat) (a : List Nat) : Catalog :=
  touchA c id (fun e => { e with addr := a })

/-- Daemon.addHash (lines 274-277). -/
def addHash (c : Catalog) (id h : Nat) : Catalog :=
  touchA c id (fun e => { e with hashes := insSet h e.hashes })

/-- Daemon.setSize (lines 291-294). -/
def setSize (c : Catalog) (id n : Nat) : Catalog :=
  touchA c id (fun e => { e with size := n })

/-- Daemon.removeHash (lines 279-280): unlike the mutators above it does not
create a record, so `self._net_info[id]` raises KeyError (modelled by `none`)
when the id is unseen. -/
def removeHashO (c : Catalog) (id h : Nat) : Option Catalog :=
  modifyAO c id (fun e => { e with hashes := eraseS h e.hashes })

/-- Daemon.getHashes (lines 282-283), with the default record for an id
Python would raise KeyError on. -/
def getHashesD (c : Catalog) (id : Nat) : List Nat :=
  ((getA c id).getD defaultEntry).hashes

/-- Daemon.getSize (lines 296-297), defaulted likewise. -/
def getSizeD (c : Catalog) (id : Nat) : Nat :=
  ((getA c id).getD defaultEntry).size

/-- Daemon.getNetHashes (lines 285-289): union of every record's hash set. -/
def getNetHashes (c : Catalog) : List Nat :=
  (getIds c).foldl (fun acc id => addAllS acc (getHashesD c id)) []

/-- Daemon.getIdByHash (lines 307-311): first catalog id whose hash set
contains the hash, in set-iteration (ascending) order; `none` models the
implicit None when no record matches. -/
def getIdByHash (c : Catalog) (h : Nat) : Option Nat :=
  (getIds c).find? (fun id => (getHashesD c id).contains h)

/-- Id issued to a joiner (daemon.py line 95): `max(self.getIds()) + 1`. -/
def maxIds (c : Catalog) : Nat := (getIds c).foldl Nat.max 0

/-- Daemon.action, join branch, new peer id. -/
def newIdOnJoin (c : Catalog) : Nat := maxIds c + 1

/-- Partial per-id record carried by the add map and remove map of an update
message (peer_protocol.py UpdateMessage): any subset of the three fields. -/
structure Delta where
  addr : Option (List Nat) := none
  hashes : Option (List Nat) := none
  size : Option Nat := none
deriving DecidableEq

/-- One outbound message as handed to PeerProto.send_msg; image bytes are
opaque and omitted, the stored file name is carried instead. -/
inductive Effect where
  | reqImage (dst h : Nat)
  | sendImage (dst h fname : Nat) (store : Bool)
  | sendUpdate (dst fromId : Nat) (add : List (Nat × Delta))
  | clientImage (conn h : Nat)
deriving DecidableEq

/-- Daemon state components the claims touch: `_id`, `_net_info`, `_image`
(hash to stored file name), `_own_request`, `_client_request`. -/
structure DState where
  selfId : Nat
  net : Catalog
  image : List (Nat × Nat)
  ownRequest : List Nat
  clientRequest : List (Nat × Nat)
deriving DecidableEq

/-- Application of one add-delta of an update message (daemon.py 160-167):
optional setAddr, then addHash per hash in the delta set, then setSize. -/
def applyAddOne (c : Catalog) (p : Nat × Delta) : Catalog :=
  let c1 := if p.2.addr.isSome then setAddr c p.1 (p.2.addr.getD []) else c
  let c2 := if p.2.hashes.isSome then
      (p.2.hashes.getD []).foldl (fun cc h => addHash cc p.1 h) c1
    else c1
  if p.2.size.isSome then setSize c2 p.1 (p.2.size.getD 0) else c2

/-- Add maps of an update message are applied entry by entry (lines 160-167). -/
def applyAdds (c : Catalog) (add : List (Nat × Delta)) : Catalog :=
  add.foldl applyAddOne c

/-- Application of one remove-delta (daemon.py 169-176): the address is reset
to the empty tuple, hashes are discarded one by one (raising, hence `none`,
when the id has no record), the size is reset to `int()`. -/
def applyRemOne (c : Catalog) (p : Nat × Delta) : Option Catalog :=
  let c1 := if p.2.addr.isSome then setAddr c p.1 [] else c
  let c2O := if p.2.hashes.isSome then
      (p.2.hashes.getD []).foldl (fun (ccO : Option Catalog) h =>
        ccO.bind (fun cc => removeHashO cc p.1 h)) (some c1)
    else some c1
  c2O.map (fun c2 => if p.2.size.isSome then setSize c2 p.1 0 else c2)

/-- Remove maps are applied entry by entry after all adds (lines 169-176). -/
def applyRems (c : Catalog) (rem : List (Nat × Delta)) : Option Catalog :=
  rem.foldl (fun cO p => cO.bind (fun cc => applyRemOne cc p)) (some c)

/-- Daemon.action, update branch (daemon.py 158-176): the whole add map is
applied before the whole remove map. -/
def applyUpdate (c : Catalog) (add rem : List (Nat × Delta)) : Option Catalog :=
  applyRems (applyAdds c add) rem

/-- Daemon.addImage followed by addHash on self, as the image branch performs
them (daemon.py 225-226); `newSize` is what getFolderSize reports after the
file is saved, and the stored file name stands in for the saved path. -/
def admitImage (s : DState) (h fname newSize : Nat) : DState :=
  { s with image := setA s.image h fname,
           net := addHash (setSize s.net s.selfId newSize) s.selfId h }

/-- Daemon.action, image branch (daemon.py 211-236). Returns the new state
and the messages sent, in order. -/
def handleImage (s : DState) (mHash mFname : Nat) (mStore : Bool) (newSize : Nat) :
    DState × List Effect :=
  let relays := s.clientRequest.filterMap
    (fun p => if p.2 = mHash then some (Effect.clientImage p.1 mHash) else none)
  if mHash ∈ s.ownRequest ∨ mStore = true then
    let s1 := admitImage { s with ownRequest := eraseS mHash s.ownRequest } mHash mFname newSize
    let upd : List (Nat × Delta) :=
      [(s.selfId, { hashes := some [mHash], size := some (getSizeD s1.net s.selfId) })]
    let others := (getIds s1.net).filter (fun id => id != s.selfId)
    (s1, relays ++ others.map (fun id => Effect.sendUpdate id s.selfId upd))
  else (s, relays)

/-- Lexicographic comparison of (size, id) pairs, as Python compares tuples
in `sorted(zip(sizes, ids))`. -/
def lexLe (a b : Nat × Nat) : Bool := a.1 < b.1 || (a.1 == b.1 && a.2 ≤ b.2)

/-- Ordered insertion for the model of Python `sorted`. -/
def insLex (a : Nat × Nat) : List (Nat × Nat) → List (Nat × Nat)
  | [] => [a]
  | b :: t => if lexLe a b then a :: b :: t else b :: insLex a t

/-- Model of Python `sorted` on (size, id) pairs: insertion sort, which is
stable like Python's sort; the pairs are distinct here so the result is the
unique lexLe-sorted permutation either way. -/
def sortLex (l : List (Nat × Nat)) : List (Nat × Nat) := l.foldr insLex []

/-- Ordering step of Daemon.crashHandler (lines 424-427): surviving ids by
(folder size ascending, id ascending). -/
def sortIds (c : Catalog) : List Nat :=
  (sortLex ((getIds c).map (fun id => (getSizeD c id, id)))).map Prod.snd

/-- Loop body of the designated peer's recovery (daemon.py 437-456): look up
a surviving holder of the hash; when it is another peer, remember the hash in
`_own_request` and request the image from it; when it is self, send the image
to the backup peer with store=true; when none remains, only log. The image
message carries the stored file name (Daemon.getImage would raise if the
local store lacked the hash; the model defaults instead). -/
def crashStep (net2 : Catalog) (selfId iB : Nat) (im : List (Nat × Nat))
    (acc : List Nat × List Effect) (h : Nat) : List Nat × List Effect :=
  match getIdByHash net2 h with
  | some o =>
    if o ≠ selfId then (insSet h acc.1, acc.2 ++ [Effect.reqImage o h])
    else (acc.1, acc.2 ++ [Effect.sendImage iB h ((getA im h).getD 0) true])
  | none => acc

/-- Daemon.crashHandler (daemon.py 419-456) for crashed id `d`. Returns the
new state and the messages sent; `none` models the KeyError raised when `d`
has no catalog entry. The backup-bound image message carries the stored file
name (Daemon.getImage would raise if the local store lacked the hash; the
model defaults instead). -/
def crashHandler (s : DState) (d : Nat) : Option (DState × List Effect) :=
  match getA s.net d with
  | none => none
  | some ed =>
    let hashesCrashed := ed.hashes
    let net2 := popA s.net d
    let idsSorted := sortIds net2
    if idsSorted.length = 1 then some ({ s with net := net2 }, [])
    else
      match idsSorted with
      | idD :: idB :: _ =>
        if s.selfId ≠ idD then some ({ s with net := net2 }, [])
        else
          let r := hashesCrashed.foldl (crashStep net2 s.selfId idB s.image)
            (s.ownRequest, [])
          some ({ s with net := net2, ownRequest := r.1 }, r.2)
      | _ => none

/-- One file of the folder as Daemon.parseFolder sees it: whether its name
ends in .jpeg/.jpg/.png, the perceptual hash computed from it, its path. -/
structure PFile where
  validExt : Bool
  hash : Nat
  path : Nat
deriving DecidableEq

/-- Daemon.compareImages (daemon.py 343-369): larger pixel count wins, then
more distinct colors, then the first argument. `pixels` and `colors` give
what PIL reports for a path. Returns (path to keep, path to remove). -/
def compareImages (pixels colors : Nat → Nat) (p1 p2 : Nat) : Nat × Nat :=
  let s1 := pixels p1
  let s2 := pixels p2
  let c1 := colors p1
  let c2 := colors p2
  if s1 > s2 then (p1, p2)
  else if s1 < s2 then (p2, p1)
  else if c1 > c2 then (p1, p2)
  else if c1 < c2 then (p2, p1)
  else (p1, p2)

/-- Indexing loop of Daemon.parseFolder (daemon.py 384-410): accumulates
`image_tmp` (a dict hash to path), `hashes_tmp`, and the deleted paths. -/
def parseLoop (pixels colors : Nat → Nat) (netH : List Nat) :
    List PFile → List (Nat × Nat) → List Nat → List Nat →
    List (Nat × Nat) × List Nat × List Nat
  | [], tmp, hs, removed => (tmp, hs, removed)
  | f :: rest, tmp, hs, removed =>
    if f.validExt = false then
      parseLoop pixels colors netH rest tmp hs (removed ++ [f.path])
    else
      match getA tmp f.hash with
      | some p0 =>
        let cr := compareImages pixels colors p0 f.path
        parseLoop pixels colors netH rest (setA tmp f.hash cr.1) hs (removed ++ [cr.2])
      | none =>
        if f.hash ∈ netH then
          parseLoop pixels colors netH rest tmp hs (removed ++ [f.path])
        else
          parseLoop pixels colors netH rest (setA tmp f.hash f.path) (insSet f.hash hs) removed

/-- Daemon.parseFolder (daemon.py 380-417): run the loop over the folder,
merge `image_tmp` into `_image`, add `hashes_tmp` to the self record, set
the self size to what getFolderSize reports (`newSize`). -/
def applyParseFolder (s : DState) (pixels colors : Nat → Nat) (files : List PFile)
    (newSize : Nat) : DState :=
  let r := parseLoop pixels colors (getNetHashes s.net) files [] [] []
  let image2 := r.1.foldl (fun im p => setA im p.1 p.2) s.image
  let net2 := r.2.1.foldl (fun c h => addHash c s.selfId h) s.net
  { s with image := image2, net := setSize net2 s.selfId newSize }

/-- Daemon.__init__ without join_addr (daemon.py 41-44): the bootstrap peer
takes id 1, registers its own address, and parses its folder. -/
def bootstrapState (a : List Nat) (pixels colors : Nat → Nat) (files : List PFile)
    (newSize : Nat) : DState :=
  applyParseFolder
    { selfId := 1, net := setAddr [] 1 a, image := [], ownRequest := [],
      clientRequest := [] }
    pixels colors files newSize

/-- Big-endian byte decoding as `int.from_bytes(b, "big")` does it: defined
on any number of bytes, 0 on the empty string. -/
def fromBytesBE (l : List Nat) : Nat := l.foldl (fun acc b => acc * 256 + b) 0

/-- PeerProto.__recvall (peer_protocol.py 263-270) with explicit fuel. The
connection is a list of remaining bytes; each blocking `recv(k)` yields up
to k of them, and the empty string once they are exhausted (orderly EOF).
One fuel unit is one iteration of the `while len(data) < n` loop; `none`
means the loop is still running when the fuel ends. -/
def recvallFuel : Nat → List Nat → List Nat → Nat → Option (List Nat)
  | 0, _, _, _ => none
  | fuel + 1, stream, data, n =>
    if data.length < n then
      recvallFuel fuel (stream.drop (n - data.length))
        (data ++ stream.take (n - data.length)) n
    else some data

/-- PeerProto.recv_msg (peer_protocol.py 231-241): read the 4-byte length
prefix, return the EOF sentinel on a zero length, otherwise read the body
via recvall. `some none` is the sentinel the demultiplexer treats as EOF;
the outer `none` means recv_msg has not returned within the fuel. Payload
deserialization is not modelled: the raw body stands for the message. -/
def recvMsgFuel (fuel : Nat) (stream : List Nat) : Option (Option (List Nat)) :=
  let mlen := fromBytesBE (stream.take 4)
  if mlen = 0 then some none
  else (recvallFuel fuel (stream.drop 4) [] mlen).map some

/-- Inner placement loop of the config branch (daemon.py 148-155): advance a
circular index over the id list until an id other than self appears, send
one image with store=true to it, break. Returns the chosen id and the new
index; `none` means the `while True` has not exited within the fuel. -/
def rrLoopFuel : Nat → List Nat → Nat → Nat → Option (Nat × Nat)
  | 0, _, _, _ => none
  | fuel + 1, ids, s, i =>
    let i2 := (i + 1) % ids.length
    if ids.getD i2 0 ≠ s then some (ids.getD i2 0, i2)
    else rrLoopFuel fuel ids s i2

/-- Replication fan-out of the config branch (daemon.py 143-156): one
placement per local hash, the circular index persisting across hashes;
`fname` gives the stored file name for a hash. -/
def distributeImages (fuel : Nat) (ids : List Nat) (s : Nat) (fname : Nat → Nat) :
    List Nat → Nat → Option (List Effect)
  | [], _ => some []
  | h :: t, i =>
    match rrLoopFuel fuel ids s i with
    | none => none
    | some r => (distributeImages fuel ids s fname t r.2).map
        (fun effs => Effect.sendImage r.1 h (fname h) true :: effs)


/-- Body of Daemon.setAddr as Python executes it: guarded default insertion,
then the field assignment `self._net_info[id]["addr"] = addr`, whose
potential KeyError is the `none` of modifyAO. -/
def setAddrO (c : Catalog) (id : Nat) (a : List Nat) : Option Catalog :=
  modifyAO (if hasA c id then c else setA c id defaultEntry) id
    (fun e => { e with addr := a })

/-- Body of Daemon.addHash as Python executes it, likewise. -/
def addHashO (c : Catalog) (id h : Nat) : Option Catalog :=
  modifyAO (if hasA c id then c else setA c id defaultEntry) id
    (fun e => { e with hashes := insSet h e.hashes })

/-- Body of Daemon.setSize as Python executes it, likewise. -/
def setSizeO (c : Catalog) (id n : Nat) : Option Catalog :=
  modifyAO (if hasA c id then c else setA c id defaultEntry) id
    (fun e => { e with size := n })

/-- Application of one add-delta through the raising mutator bodies. -/
def applyAddOneO (c : Catalog) (p : Nat × Delta) : Option Catalog :=
  let c1O := if p.2.addr.isSome then setAddrO c p.1 (p.2.addr.getD []) else some c
  let c2O := if p.2.hashes.isSome then
      (p.2.hashes.getD []).foldl
        (fun (ccO : Option Catalog) h => ccO.bind (fun cc => addHashO cc p.1 h)) c1O
    else c1O
  c2O.bind (fun c2 =>
    if p.2.size.isSome then setSizeO c2 p.1 (p.2.size.getD 0) else some c2)

/-- Application of a whole add map through the raising mutator bodies. -/
def applyAddsO (c : Catalog) (add : List (Nat × Delta)) : Option Catalog :=
  add.foldl (fun (cO : Option Catalog) p => cO.bind (fun cc => applyAddOneO cc p)) (some c)

/-- Effect of one add-delta on the record of its id, viewed through getA:
the optional address write (creating a default record), the hash additions
(creating a default record only when the delta hash set is non-empty), the
optional size write. -/
def addDeltaE (o : Option Entry) (d : Delta) : Option Entry :=
  let o1 := if d.addr.isSome then
      some { (o.getD defaultEntry) with addr := d.addr.getD [] }
    else o
  let o2 := if d.hashes.isSome then
      (if d.hashes.getD [] = [] then o1
       else some { (o1.getD defaultEntry) with
                   hashes := addAllS (o1.getD defaultEntry).hashes (d.hashes.getD []) })
    else o1
  if d.size.isSome then some { (o2.getD defaultEntry) with size := d.size.getD 0 }
  else o2

/-- Effect of one remove-delta on the record of its id, viewed through getA;
the outer `none` is the KeyError removeHash raises when discards hit an id
with no record. -/
def remDeltaE (o : Option Entry) (d : Delta) : Option (Option Entry) :=
  let o1 := if d.addr.isSome then
      some { (o.getD defaultEntry) with addr := [] }
    else o
  let o2O : Option (Option Entry) := if d.hashes.isSome then
      (if d.hashes.getD [] = [] then some o1
       else match o1 with
         | none => none
         | some e =>
           some (some { e with hashes := removeAllS e.hashes (d.hashes.getD []) }))
    else some o1
  o2O.map (fun (o2 : Option Entry) =>
    if d.size.isSome then some { (o2.getD defaultEntry) with size := 0 } else o2)

/-- Effect on one id of the whole add map, which carries at most one delta
for the id. -/
def addDeltaOpt (o : Option Entry) (aO : Option Delta) : Option Entry :=
  match aO with
  | some a => addDeltaE o a
  | none => o

/-- Combined effect on one id of an update message carrying the optional
add-delta `aO` and optional remove-delta `rO` for that id. -/
def applyBoth (o : Option Entry) (aO rO : Option Delta) : Option (Option Entry) :=
  match rO with
  | some r => remDeltaE (addDeltaOpt o aO) r
  | none => some (addDeltaOpt o aO)

/-- Hash field of a message, for stating which hash a message is about. -/
def effHash : Effect → Option Nat
  | .reqImage _ h => some h
  | .sendImage _ h _ _ => some h
  | .sendUpdate _ _ _ => none
  | .clientImage _ h => some h

/-- Messages one iteration of the recovery loop emits for its hash. -/
def recoverEffect (net2 : Catalog) (selfId iB : Nat) (im : List (Nat × Nat))
    (h : Nat) : List Effect :=
  (crashStep net2 selfId iB im ([], []) h).2

/-- Invariant relating the local image store to the catalog self record: the
key set of `_image` equals the self hash set (spec section 3). -/
def storeInv (s : DState) : Prop :=
  ∀ x, x ∈ keysA s.image ↔ x ∈ getHashesD s.net s.selfId

/-- Concrete pre-crash state: peer 1 (self, smallest folder) and peer 2 both
hold hash 10, crashed peer 3 held hash 10 as well. -/
def stateC2 : DState :=
  { selfId := 1,
    net := [(1, { addr := [], hashes := [10], size := 0 }),
            (2, { addr := [], hashes := [10], size := 5 }),
            (3, { addr := [], hashes := [10], size := 7 })],
    image := [(10, 42)],
    ownRequest := [],
    clientRequest := [] }

/-- State stateC2 reaches after handling the crash of peer 3. -/
def stateC2After : DState :=
  { selfId := 1,
    net := [(1, { addr := [], hashes := [10], size := 0 }),
            (2, { addr := [], hashes := [10], size := 5 })],
    image := [(10, 42)],
    ownRequest := [],
    clientRequest := [] }

theorem getA_setA_self {α : Type} (c : List (Nat × α)) (i : Nat) (v : α) :
    getA (setA c i v) i = some v := by
  induction c with
  | nil => simp [setA, getA]
  | cons p t ih =>
    obtain ⟨k, w⟩ := p
    by_cases h : k = i
    · simp [setA, getA, h]
    · simp [setA, getA, h, ih]

theorem getA_setA_ne {α : Type} (c : List (Nat × α)) (i j : Nat) (v : α)
    (h : j ≠ i) : getA (setA c i v) j = getA c j := by
  have hij : i ≠ j := Ne.symm h
  induction c with
  | nil => simp [setA, getA, hij]
  | cons p t ih =>
    obtain ⟨k, w⟩ := p
    by_cases hk : k = i
    · subst hk
      simp [setA, getA, hij]
    · simp [setA, getA, hk, ih]

theorem getA_modifyA_self {α : Type} (c : List (Nat × α)) (i : Nat) (f : α → α) :
    getA (modifyA c i f) i = (getA c i).map f := by
  induction c with
  | nil => simp [modifyA, getA]
  | cons p t ih =>
    obtain ⟨k, w⟩ := p
    by_cases h : k = i
    · simp [modifyA, getA, h]
    · simp [modifyA, getA, h, ih]

theorem getA_modifyA_ne {α : Type} (c : List (Nat × α)) (i j : Nat) (f : α → α)
    (h : j ≠ i) : getA (modifyA c i f) j = getA c j := by
  have hij : i ≠ j := Ne.symm h
  induction c with
  | nil => simp [modifyA, getA]
  | cons p t ih =>
    obtain ⟨k, w⟩ := p
    by_cases hk : k = i
    · subst hk
      simp [modifyA, getA, hij]
    · simp [modifyA, getA, hk, ih]

theorem keysA_modifyA {α : Type} (c : List (Nat × α)) (i : Nat) (f : α → α) :
    keysA (modifyA c i f) = keysA c := by
  induction c with
  | nil => simp [modifyA]
  | cons p t ih =>
    obtain ⟨k, w⟩ := p
    by_cases h : k = i
    · simp [modifyA, keysA, h]
    · simp only [modifyA, keysA, h, if_false, List.map_cons]
      simpa [keysA] using ih

theorem keysA_setA_of_has {α : Type} (c : List (Nat × α)) (i : Nat) (v : α)
    (h : hasA c i = true) : keysA (setA c i v) = keysA c := by
  induction c with
  | nil => simp [hasA, getA] at h
  | cons p t ih =>
    obtain ⟨k, w⟩ := p
    by_cases hk : k = i
    · simp [setA, keysA, hk]
    · simp only [hasA, getA, hk, if_false] at h
      simp only [setA, hk, if_false, keysA, List.map_cons]
      simpa [keysA] using ih h

theorem keysA_setA_of_not {α : Type} (c : List (Nat × α)) (i : Nat) (v : α)
    (h : hasA c i = false) : keysA (setA c i v) = keysA c ++ [i] := by
  induction c with
  | nil => simp [setA, keysA]
  | cons p t ih =>
    obtain ⟨k, w⟩ := p
    by_cases hk : k = i
    · simp [hasA, getA, hk] at h
    · simp only [hasA, getA, hk, if_false] at h
      simp only [setA, hk, if_false, keysA, List.map_cons, List.cons_append]
      simpa [keysA] using ih h

theorem mem_keysA_iff_hasA {α : Type} (c : List (Nat × α)) (i : Nat) :
    i ∈ keysA c ↔ hasA c i = true := by
  induction c with
  | nil => simp [keysA, hasA, getA]
  | cons p t ih =>
    obtain ⟨k, w⟩ := p
    by_cases hk : k = i
    · simp [keysA, hasA, getA, hk]
    · simp [keysA, hasA, getA, hk, Ne.symm hk] at ih ⊢
      exact ih

theorem getA_popA_self {α : Type} (c : List (Nat × α)) (i : Nat) :
    getA (popA c i) i = none := by
  induction c with
  | nil => simp [popA, getA]
  | cons p t ih =>
    obtain ⟨k, w⟩ := p
    by_cases hk : k = i
    · simpa [popA, hk] using ih
    · simpa [popA, getA, hk] using ih

theorem getA_popA_ne {α : Type} (c : List (Nat × α)) (i j : Nat) (h : j ≠ i) :
    getA (popA c i) j = getA c j := by
  have hij : i ≠ j := Ne.symm h
  induction c with
  | nil => simp [popA, getA]
  | cons p t ih =>
    obtain ⟨k, w⟩ := p
    by_cases hk : k = i
    · have he : popA ((k, w) :: t) i = popA t i := by simp [popA, hk]
      have hkj : k ≠ j := by rw [hk]; exact hij
      rw [he, ih]
      simp [getA, hkj]
    · have he : popA ((k, w) :: t) i = (k, w) :: popA t i := by simp [popA, hk]
      rw [he]
      simp [getA, ih]
theorem mem_insSet (x h : Nat) (l : List Nat) :
    x ∈ insSet h l ↔ x = h ∨ x ∈ l := by
  induction l with
  | nil => simp [insSet]
  | cons b t ih =>
    by_cases h1 : h < b
    · simp [insSet, h1]
    · by_cases h2 : h = b
      · subst h2
        simp [insSet, h1]
      · simp [insSet, h1, h2, ih]
        tauto

theorem canonS_insSet (h : Nat) (l : List Nat) (hc : canonS l) :
    canonS (insSet h l) := by
  induction l with
  | nil => simp [insSet, canonS]
  | cons b t ih =>
    rcases hc with _ | ⟨hb, ht⟩
    by_cases h1 : h < b
    · simp only [insSet, if_pos h1]
      refine List.Pairwise.cons ?_ (List.Pairwise.cons hb ht)
      intro x hx
      simp only [List.mem_cons] at hx
      rcases hx with hx | hx
      · omega
      · have := hb x hx
        omega
    · by_cases h2 : h = b
      · simp only [insSet, if_neg h1, if_pos h2]
        exact List.Pairwise.cons hb ht
      · simp only [insSet, if_neg h1, if_neg h2]
        refine List.Pairwise.cons ?_ (ih ht)
        intro x hx
        rw [mem_insSet] at hx
        rcases hx with hx | hx
        · omega
        · exact hb x hx

theorem mem_eraseS (x h : Nat) (l : List Nat) :
    x ∈ eraseS h l ↔ x ∈ l ∧ x ≠ h := by
  simp [eraseS, List.mem_filter]

theorem canonS_eraseS (h : Nat) (l : List Nat) (hc : canonS l) :
    canonS (eraseS h l) :=
  List.Pairwise.sublist (List.filter_sublist l) hc

theorem mem_addAllS (x : Nat) (base extra : List Nat) :
    x ∈ addAllS base extra ↔ x ∈ base ∨ x ∈ extra := by
  induction extra generalizing base with
  | nil => simp [addAllS]
  | cons b t ih =>
    simp only [addAllS, List.foldl_cons] at ih ⊢
    rw [ih, mem_insSet]
    simp only [List.mem_cons]
    tauto

theorem canonS_addAllS (base extra : List Nat) (hc : canonS base) :
    canonS (addAllS base extra) := by
  induction extra generalizing base with
  | nil => simpa [addAllS] using hc
  | cons b t ih =>
    simp only [addAllS, List.foldl_cons]
    exact ih _ (canonS_insSet b base hc)

theorem mem_removeAllS (x : Nat) (base rem : List Nat) :
    x ∈ removeAllS base rem ↔ x ∈ base ∧ x ∉ rem := by
  induction rem generalizing base with
  | nil => simp [removeAllS]
  | cons b t ih =>
    simp only [removeAllS, List.foldl_cons] at ih ⊢
    rw [ih, mem_eraseS]
    simp only [List.mem_cons]
    tauto

theorem canonS_removeAllS (base rem : List Nat) (hc : canonS base) :
    canonS (removeAllS base rem) := by
  induction rem generalizing base with
  | nil => simpa [removeAllS] using hc
  | cons b t ih =>
    simp only [removeAllS, List.foldl_cons]
    exact ih _ (canonS_eraseS b base hc)

theorem canonS_ext (a b : List Nat) (ha : canonS a) (hb : canonS b)
    (h : ∀ x, x ∈ a ↔ x ∈ b) : a = b := by
  induction a generalizing b with
  | nil =>
    cases b with
    | nil => rfl
    | cons y ys =>
      have := (h y).2 (by simp)
      simp at this
  | cons x xs ih =>
    cases b with
    | nil =>
      have := (h x).1 (by simp)
      simp at this
    | cons y ys =>
      rcases ha with _ | ⟨hxa, hxs⟩
      rcases hb with _ | ⟨hyb, hys⟩
      have hxy : x = y := by
        have hx : x = y ∨ x ∈ ys := by simpa using (h x).1 (by simp)
        have hy : y = x ∨ y ∈ xs := by simpa using (h y).2 (by simp)
        rcases hx with hx | hx
        · exact hx
        · rcases hy with hy | hy
          · omega
          · have h1 := hyb x hx
            have h2 := hxa y hy
            omega
      subst hxy
      have htail : ∀ z, z ∈ xs ↔ z ∈ ys := by
        intro z
        constructor
        · intro hz
          have hlt := hxa z hz
          have : z = x ∨ z ∈ ys := by simpa using (h z).1 (by simp [hz])
          rcases this with hzx | hzy
          · omega
          · exact hzy
        · intro hz
          have hlt := hyb z hz
          have : z = x ∨ z ∈ xs := by simpa using (h z).2 (by simp [hz])
          rcases this with hzx | hzy
          · omega
          · exact hzy
      rw [ih ys hxs hys htail]

theorem mem_getIds (c : Catalog) (x : Nat) : x ∈ getIds c ↔ x ∈ keysA c := by
  simp [getIds, mem_addAllS]

theorem canonS_getIds (c : Catalog) : canonS (getIds c) :=
  canonS_addAllS [] (keysA c) (List.Pairwise.nil)

theorem getA_touchA_self (c : Catalog) (id : Nat) (f : Entry → Entry) :
    getA (touchA c id f) id = some (f ((getA c id).getD defaultEntry)) := by
  unfold touchA
  by_cases h : hasA c id = true
  · rw [if_pos h, getA_modifyA_self]
    unfold hasA at h
    cases hv : getA c id with
    | none => rw [hv] at h; simp at h
    | some v => simp [hv]
  · rw [if_neg h, getA_modifyA_self, getA_setA_self]
    unfold hasA at h
    cases hv : getA c id with
    | none => simp
    | some v => rw [hv] at h; simp at h

theorem getA_touchA_ne (c : Catalog) (id j : Nat) (f : Entry → Entry)
    (h : j ≠ id) : getA (touchA c id f) j = getA c j := by
  unfold touchA
  by_cases hh : hasA c id = true
  · rw [if_pos hh, getA_modifyA_ne _ _ _ _ h]
  · rw [if_neg hh, getA_modifyA_ne _ _ _ _ h, getA_setA_ne _ _ _ _ h]

theorem keysA_touchA (c : Catalog) (id : Nat) (f : Entry → Entry) :
    keysA (touchA c id f) = if hasA c id then keysA c else keysA c ++ [id] := by
  unfold touchA
  by_cases hh : hasA c id = true
  · rw [if_pos hh, if_pos hh, keysA_modifyA]
  · rw [if_neg hh, if_neg hh, keysA_modifyA,
        keysA_setA_of_not _ _ _ (by simpa using hh)]

theorem hasA_touchA_self (c : Catalog) (id : Nat) (f : Entry → Entry) :
    hasA (touchA c id f) id = true := by
  unfold hasA
  rw [getA_touchA_self]
  rfl

theorem le_foldl_max (l : List Nat) (i : Nat) : i ≤ l.foldl Nat.max i := by
  induction l generalizing i with
  | nil => exact Nat.le_refl i
  | cons b t ih => exact le_trans (Nat.le_max_left i b) (ih (Nat.max i b))

theorem mem_le_foldl_max (l : List Nat) (i x : Nat) (hx : x ∈ l) :
    x ≤ l.foldl Nat.max i := by
  induction l generalizing i with
  | nil => simp at hx
  | cons b t ih =>
    rcases List.mem_cons.mp hx with h | h
    · subst h
      exact le_trans (Nat.le_max_right i x) (le_foldl_max t _)
    · exact ih _ h

/-- C4: the bootstrap peer assigns itself identifier 1, and a join handled
over a non-empty catalog issues max of the catalog ids plus 1, which is
strictly greater than every live identifier and distinct from all of them. -/
theorem C4_join_id (a : List Nat) (pixels colors : Nat → Nat)
    (files : List PFile) (ns : Nat) (c : Catalog) (hne : getIds c ≠ []) :
    (bootstrapState a pixels colors files ns).selfId = 1 ∧
    newIdOnJoin c = maxIds c + 1 ∧
    (∀ id ∈ getIds c, id < newIdOnJoin c) ∧
    newIdOnJoin c ∉ getIds c := by
  refine ⟨rfl, rfl, ?_, ?_⟩
  · intro id hid
    have hle := mem_le_foldl_max (getIds c) 0 id hid
    simp only [newIdOnJoin, maxIds]
    omega
  · intro hmem
    have hle := mem_le_foldl_max (getIds c) 0 _ hmem
    simp only [newIdOnJoin, maxIds] at hle
    omega

/-- Witness for C4 at a concrete two-peer catalog. -/
theorem C4_join_id_w :
    (bootstrapState [7] (fun _ => 0) (fun _ => 0) [] 0).selfId = 1 ∧
    newIdOnJoin [(1, defaultEntry), (2, defaultEntry)] =
      maxIds [(1, defaultEntry), (2, defaultEntry)] + 1 ∧
    (∀ id ∈ getIds [(1, defaultEntry), (2, defaultEntry)],
      id < newIdOnJoin [(1, defaultEntry), (2, defaultEntry)]) ∧
    newIdOnJoin [(1, defaultEntry), (2, defaultEntry)] ∉
      getIds [(1, defaultEntry), (2, defaultEntry)] :=
  C4_join_id [7] (fun _ => 0) (fun _ => 0) [] 0 _ (by decide)

theorem ensureHasA (c : Catalog) (id : Nat) :
    hasA (if hasA c id then c else setA c id defaultEntry) id = true := by
  by_cases h : hasA c id
  · simpa [h]
  · simp only [h, if_false, Bool.false_eq_true]
    simp [hasA, getA_setA_self]

theorem touchAO_eq (c : Catalog) (id : Nat) (f : Entry → Entry) :
    modifyAO (if hasA c id then c else setA c id defaultEntry) id f =
      some (touchA c id f) := by
  unfold modifyAO touchA
  rw [if_pos (ensureHasA c id)]

theorem setAddrO_eq (c : Catalog) (id : Nat) (a : List Nat) :
    setAddrO c id a = some (setAddr c id a) :=
  touchAO_eq c id _

theorem addHashO_eq (c : Catalog) (id h : Nat) :
    addHashO c id h = some (addHash c id h) :=
  touchAO_eq c id _

theorem setSizeO_eq (c : Catalog) (id n : Nat) :
    setSizeO c id n = some (setSize c id n) :=
  touchAO_eq c id _

theorem foldl_addHashO_eq (hs : List Nat) (c : Catalog) (j : Nat) :
    hs.foldl (fun (ccO : Option Catalog) h => ccO.bind (fun cc => addHashO cc j h))
      (some c) = some (hs.foldl (fun cc h => addHash cc j h) c) := by
  induction hs generalizing c with
  | nil => rfl
  | cons b t ih =>
    simp only [List.foldl_cons, Option.some_bind]
    rw [addHashO_eq]
    exact ih _

theorem applyAddOneO_eq (c : Catalog) (p : Nat × Delta) :
    applyAddOneO c p = some (applyAddOne c p) := by
  obtain ⟨j, da, dh, ds⟩ := p
  unfold applyAddOneO applyAddOne
  cases da <;> cases dh <;> cases ds <;>
    simp [setAddrO_eq, setSizeO_eq, foldl_addHashO_eq]

theorem applyAddsO_eq (c : Catalog) (add : List (Nat × Delta)) :
    applyAddsO c add = some (applyAdds c add) := by
  induction add generalizing c with
  | nil => rfl
  | cons p t ih =>
    simp only [applyAddsO, applyAdds, List.foldl_cons, Option.some_bind,
      applyAddOneO_eq] at ih ⊢
    exact ih _

/-- C10: the mutators setAddr, addHash, setSize are total over peer ids: the
guarded default insertion makes the following field assignment never raise,
an unseen id receives the default record with the one field applied, and
applying the add map of any update message never fails. -/
theorem C10_mutators_total (c : Catalog) (id h n : Nat) (a : List Nat)
    (add : List (Nat × Delta)) :
    setAddrO c id a = some (setAddr c id a) ∧
    addHashO c id h = some (addHash c id h) ∧
    setSizeO c id n = some (setSize c id n) ∧
    (hasA c id = false →
      getA (setAddr c id a) id = some { addr := a, hashes := [], size := 0 } ∧
      getA (addHash c id h) id = some { addr := [], hashes := [h], size := 0 } ∧
      getA (setSize c id n) id = some { addr := [], hashes := [], size := n }) ∧
    applyAddsO c add = some (applyAdds c add) := by
  refine ⟨setAddrO_eq c id a, addHashO_eq c id h, setSizeO_eq c id n, ?_,
    applyAddsO_eq c add⟩
  intro hmiss
  have hnone : getA c id = none := by
    unfold hasA at hmiss
    exact Option.not_isSome_iff_eq_none.mp (by simp [hmiss])
  unfold setAddr addHash setSize
  rw [getA_touchA_self, getA_touchA_self, getA_touchA_self, hnone]
  simp [defaultEntry, insSet]

/-- Witness for C10 at an id the catalog has never seen. -/
theorem C10_mutators_total_w :
    getA (setAddr [(1, defaultEntry)] 2 [9]) 2 =
      some { addr := [9], hashes := [], size := 0 } ∧
    getA (addHash [(1, defaultEntry)] 2 5) 2 =
      some { addr := [], hashes := [5], size := 0 } ∧
    getA (setSize [(1, defaultEntry)] 2 7) 2 =
      some { addr := [], hashes := [], size := 7 } :=
  (C10_mutators_total [(1, defaultEntry)] 2 5 7 [9] []).2.2.2.1 (by decide)

theorem recvall_stuck (fuel : Nat) (stream data : List Nat) (n : Nat)
    (hlt : data.length + stream.length < n) :
    recvallFuel fuel stream data n = none := by
  induction fuel generalizing stream data with
  | zero => rfl
  | succ f ih =>
    have hd : data.length < n := by omega
    simp only [recvallFuel, if_pos hd]
    apply ih
    rw [List.length_append, List.length_take, List.length_drop]
    omega

/-- C6 (demonstrating the defect): a zero length prefix yields the EOF
sentinel, as does a clean EOF right at the prefix where recv returns the
empty string, but on a short read within a frame body recv_msg never
returns, for any number of loop iterations, instead of terminating with the
sentinel: recv keeps returning the empty string after EOF and the recvall
loop makes no progress. -/
theorem C6_recv_disconnect :
    (∀ fuel, recvMsgFuel fuel ([0, 0, 0, 0] ++ [9, 9]) = some none) ∧
    (∀ fuel, recvMsgFuel fuel [] = some none) ∧
    (∀ fuel, recvMsgFuel fuel [0, 0, 0, 5, 1, 2, 3] = none) := by
  refine ⟨fun fuel => rfl, fun fuel => rfl, fun fuel => ?_⟩
  unfold recvMsgFuel
  rw [show fromBytesBE (List.take 4 [0, 0, 0, 5, 1, 2, 3]) = 5 from rfl]
  rw [if_neg (by norm_num)]
  rw [show List.drop 4 [0, 0, 0, 5, 1, 2, 3] = [1, 2, 3] from rfl]
  rw [recvall_stuck fuel [1, 2, 3] [] 5 (by simp)]
  rfl

/-- C7: when two files hash identically during folder parsing, the kept file
is decided by pixel count first, distinct colors second, first seen on a
full tie; the loser is deleted from disk (its path lands in the removed
list) and is absent from the resulting hash index. -/
theorem C7_duplicate_tie_break (pixels colors : Nat → Nat) (netH : List Nat)
    (f1 f2 : PFile) (hv1 : f1.validExt = true) (hv2 : f2.validExt = true)
    (hh : f2.hash = f1.hash) (hnet : f1.hash ∉ netH) (hp : f1.path ≠ f2.path) :
    parseLoop pixels colors netH [f1, f2] [] [] [] =
      ([(f1.hash, (compareImages pixels colors f1.path f2.path).1)], [f1.hash],
        [(compareImages pixels colors f1.path f2.path).2]) ∧
    (pixels f1.path > pixels f2.path →
      compareImages pixels colors f1.path f2.path = (f1.path, f2.path)) ∧
    (pixels f1.path < pixels f2.path →
      compareImages pixels colors f1.path f2.path = (f2.path, f1.path)) ∧
    (pixels f1.path = pixels f2.path → colors f1.path > colors f2.path →
      compareImages pixels colors f1.path f2.path = (f1.path, f2.path)) ∧
    (pixels f1.path = pixels f2.path → colors f1.path < colors f2.path →
      compareImages pixels colors f1.path f2.path = (f2.path, f1.path)) ∧
    (pixels f1.path = pixels f2.path → colors f1.path = colors f2.path →
      compareImages pixels colors f1.path f2.path = (f1.path, f2.path)) ∧
    (compareImages pixels colors f1.path f2.path).2 ∉
      [(f1.hash, (compareImages pixels colors f1.path f2.path).1)].map Prod.snd := by
  refine ⟨?_, ?_, ?_, ?_, ?_, ?_, ?_⟩
  · simp [parseLoop, hv1, hv2, hh, hnet, getA, setA, insSet]
  · intro h
    simp only [compareImages]
    split_ifs <;> first | rfl | omega
  · intro h
    simp only [compareImages]
    split_ifs <;> first | rfl | omega
  · intro h1 h2
    simp only [compareImages]
    split_ifs <;> first | rfl | omega
  · intro h1 h2
    simp only [compareImages]
    split_ifs <;> first | rfl | omega
  · intro h1 h2
    simp only [compareImages]
    split_ifs <;> first | rfl | omega
  · simp only [List.map_cons, List.map_nil, List.mem_singleton]
    simp only [compareImages]
    split_ifs <;> simp [hp, Ne.symm hp]

/-- Witness for C7: same hash, second file has the larger pixel count. -/
theorem C7_duplicate_tie_break_w :
    parseLoop (fun p => p) (fun p => p) [] [⟨true, 3, 10⟩, ⟨true, 3, 11⟩] [] [] [] =
      ([(3, (compareImages (fun p => p) (fun p => p) 10 11).1)], [3],
        [(compareImages (fun p => p) (fun p => p) 10 11).2]) ∧
    ((10 : Nat) > 11 →
      compareImages (fun p => p) (fun p => p) 10 11 = (10, 11)) ∧
    ((10 : Nat) < 11 →
      compareImages (fun p => p) (fun p => p) 10 11 = (11, 10)) ∧
    ((10 : Nat) = 11 → (10 : Nat) > 11 →
      compareImages (fun p => p) (fun p => p) 10 11 = (10, 11)) ∧
    ((10 : Nat) = 11 → (10 : Nat) < 11 →
      compareImages (fun p => p) (fun p => p) 10 11 = (11, 10)) ∧
    ((10 : Nat) = 11 → (10 : Nat) = 11 →
      compareImages (fun p => p) (fun p => p) 10 11 = (10, 11)) ∧
    (compareImages (fun p => p) (fun p => p) 10 11).2 ∉
      [(3, (compareImages (fun p => p) (fun p => p) 10 11).1)].map Prod.snd :=
  C7_duplicate_tie_break (fun p => p) (fun p => p) [] ⟨true, 3, 10⟩ ⟨true, 3, 11⟩
    rfl rfl rfl (by decide) (by decide)

theorem mem_keysA_setA {α : Type} (c : List (Nat × α)) (i x : Nat) (v : α) :
    x ∈ keysA (setA c i v) ↔ x = i ∨ x ∈ keysA c := by
  induction c with
  | nil => simp [setA, keysA]
  | cons p t ih =>
    obtain ⟨k, w⟩ := p
    by_cases hk : k = i
    · subst hk
      simp [setA, keysA]
    · simp only [setA, hk, if_false, keysA, List.map_cons, List.mem_cons]
      rw [show (setA t i v).map Prod.fst = keysA (setA t i v) from rfl, ih]
      simp [keysA]
      tauto

theorem mem_keysA_foldl_setA (l : List (Nat × Nat)) (base : List (Nat × Nat))
    (x : Nat) :
    x ∈ keysA (l.foldl (fun im p => setA im p.1 p.2) base) ↔
      x ∈ keysA base ∨ x ∈ keysA l := by
  induction l generalizing base with
  | nil => simp [keysA]
  | cons p t ih =>
    simp only [List.foldl_cons]
    rw [ih]
    simp only [keysA, List.map_cons, List.mem_cons]
    rw [show (setA base p.1 p.2).map Prod.fst = keysA (setA base p.1 p.2) from rfl,
      mem_keysA_setA]
    simp [keysA]
    tauto

theorem getHashesD_addHash_self (c : Catalog) (id h : Nat) :
    getHashesD (addHash c id h) id = insSet h (getHashesD c id) := by
  unfold getHashesD addHash
  rw [getA_touchA_self]
  rfl

theorem getHashesD_addHash_ne (c : Catalog) (id j h : Nat) (hne : j ≠ id) :
    getHashesD (addHash c id h) j = getHashesD c j := by
  unfold getHashesD addHash
  rw [getA_touchA_ne _ _ _ _ hne]

theorem getHashesD_setSize_self (c : Catalog) (id n : Nat) :
    getHashesD (setSize c id n) id = getHashesD c id := by
  unfold getHashesD setSize
  rw [getA_touchA_self]
  cases hv : getA c id <;> simp [defaultEntry]

theorem mem_getHashesD_foldl_addHash (l : List Nat) (c : Catalog) (id x : Nat) :
    x ∈ getHashesD (l.foldl (fun cc h => addHash cc id h) c) id ↔
      x ∈ getHashesD c id ∨ x ∈ l := by
  induction l generalizing c with
  | nil => simp
  | cons b t ih =>
    simp only [List.foldl_cons]
    rw [ih, getHashesD_addHash_self, mem_insSet]
    simp only [List.mem_cons]
    tauto

theorem parseLoop_keys (pixels colors : Nat → Nat) (netH : List Nat)
    (files : List PFile) :
    ∀ (tmp : List (Nat × Nat)) (hs removed : List Nat),
      (∀ x, x ∈ keysA tmp ↔ x ∈ hs) →
      ∀ x, x ∈ keysA (parseLoop pixels colors netH files tmp hs removed).1 ↔
        x ∈ (parseLoop pixels colors netH files tmp hs removed).2.1 := by
  induction files with
  | nil =>
    intro tmp hs removed hinv x
    simpa [parseLoop] using hinv x
  | cons f rest ih =>
    intro tmp hs removed hinv x
    by_cases hv : f.validExt = false
    · simp only [parseLoop, hv, if_true]
      exact ih tmp hs _ hinv x
    · simp only [parseLoop, hv, if_false]
      cases hg : getA tmp f.hash with
      | some p0 =>
        apply ih
        intro y
        rw [show keysA (setA tmp f.hash (compareImages pixels colors p0 f.path).1)
              = keysA (setA tmp f.hash (compareImages pixels colors p0 f.path).1)
            from rfl]
        rw [mem_keysA_setA]
        have hmem : f.hash ∈ keysA tmp := by
          rw [mem_keysA_iff_hasA]
          simp [hasA, hg]
        constructor
        · rintro (rfl | hy)
          · exact (hinv _).mp hmem
          · exact (hinv _).mp hy
        · intro hy
          exact Or.inr ((hinv _).mpr hy)
      | none =>
        by_cases hn : f.hash ∈ netH
        · simp only [hn, if_true]
          exact ih tmp hs _ hinv x
        · simp only [hn, if_false]
          apply ih
          intro y
          rw [mem_keysA_setA, mem_insSet]
          rw [hinv y]

theorem storeInv_applyParseFolder (s : DState) (pixels colors : Nat → Nat)
    (files : List PFile) (ns : Nat) (hinv : storeInv s) :
    storeInv (applyParseFolder s pixels colors files ns) := by
  intro x
  unfold applyParseFolder
  simp only
  rw [show keysA ((parseLoop pixels colors (getNetHashes s.net) files [] [] []).1.foldl
        (fun im p => setA im p.1 p.2) s.image)
      = keysA ((parseLoop pixels colors (getNetHashes s.net) files [] [] []).1.foldl
        (fun im p => setA im p.1 p.2) s.image) from rfl]
  rw [mem_keysA_foldl_setA]
  unfold getHashesD
  rw [show ((getA (setSize ((parseLoop pixels colors (getNetHashes s.net) files [] [] []).2.1.foldl
      (fun c h => addHash c s.selfId h) s.net) s.selfId ns) s.selfId).getD defaultEntry).hashes
    = getHashesD (setSize ((parseLoop pixels colors (getNetHashes s.net) files [] [] []).2.1.foldl
      (fun c h => addHash c s.selfId h) s.net) s.selfId ns) s.selfId from rfl]
  rw [getHashesD_setSize_self, mem_getHashesD_foldl_addHash]
  rw [hinv x]
  have hkeys := parseLoop_keys pixels colors (getNetHashes s.net) files [] [] []
    (by intro y; simp [keysA]) x
  rw [← hkeys]

theorem storeInv_admitImage (s : DState) (h fname ns : Nat) (hinv : storeInv s) :
    storeInv (admitImage s h fname ns) := by
  intro x
  unfold admitImage
  simp only
  rw [mem_keysA_setA]
  unfold getHashesD
  rw [show ((getA (addHash (setSize s.net s.selfId ns) s.selfId h) s.selfId).getD
      defaultEntry).hashes
    = getHashesD (addHash (setSize s.net s.selfId ns) s.selfId h) s.selfId from rfl]
  rw [getHashesD_addHash_self, getHashesD_setSize_self, mem_insSet]
  rw [hinv x]

/-- C5: the catalog self record hash set equals the key set of the local
image store: it holds after bootstrap construction and is preserved both by
folder parsing and by image admission. -/
theorem C5_store_catalog_inv (s : DState) (a : List Nat)
    (pixels colors : Nat → Nat) (files : List PFile) (ns h fname : Nat)
    (hinv : storeInv s) :
    storeInv (applyParseFolder s pixels colors files ns) ∧
    storeInv (admitImage s h fname ns) ∧
    storeInv (bootstrapState a pixels colors files ns) := by
  refine ⟨storeInv_applyParseFolder s pixels colors files ns hinv,
    storeInv_admitImage s h fname ns hinv, ?_⟩
  apply storeInv_applyParseFolder
  intro x
  unfold keysA getHashesD setAddr
  rw [getA_touchA_self]
  simp [defaultEntry, getA]

/-- Witness for C5 at a one-peer state holding one image. -/
theorem C5_store_catalog_inv_w :
    storeInv (applyParseFolder
      { selfId := 1, net := [(1, { addr := [], hashes := [5], size := 0 })],
        image := [(5, 77)], ownRequest := [], clientRequest := [] }
      (fun _ => 0) (fun _ => 0) [⟨true, 6, 11⟩] 9) ∧
    storeInv (admitImage
      { selfId := 1, net := [(1, { addr := [], hashes := [5], size := 0 })],
        image := [(5, 77)], ownRequest := [], clientRequest := [] } 6 8 9) ∧
    storeInv (bootstrapState [] (fun _ => 0) (fun _ => 0) [⟨true, 6, 11⟩] 9) :=
  C5_store_catalog_inv
    { selfId := 1, net := [(1, { addr := [], hashes := [5], size := 0 })],
      image := [(5, 77)], ownRequest := [], clientRequest := [] }
    [] (fun _ => 0) (fun _ => 0) [⟨true, 6, 11⟩] 9 6 8 (fun _ => Iff.rfl)

theorem getD_mem_of_lt (l : List Nat) (n d : Nat) (h : n < l.length) :
    l.getD n d ∈ l := by
  induction l generalizing n with
  | nil => simp at h
  | cons b t ih =>
    cases n with
    | zero => simp
    | succ m =>
      simp only [List.getD_cons_succ, List.mem_cons]
      exact Or.inr (ih m (by simpa using h))

theorem getD_of_lt (l : List Nat) (n d : Nat) (h : n < l.length) :
    l.getD n d = l.get ⟨n, h⟩ := by
  induction l generalizing n with
  | nil => simp at h
  | cons b t ih =>
    cases n with
    | zero => simp
    | succ m => simpa using ih m (by simpa using h)

theorem rrLoopFuel_none_of_all_self (ids : List Nat) (s : Nat)
    (hall : ∀ j ∈ ids, j = s) (hne : ids ≠ []) :
    ∀ fuel i, rrLoopFuel fuel ids s i = none := by
  intro fuel
  induction fuel with
  | zero => intro i; rfl
  | succ f ih =>
    intro i
    have hlen : 0 < ids.length := List.length_pos.mpr hne
    have hlt : (i + 1) % ids.length < ids.length := Nat.mod_lt _ hlen
    have heq : ids.getD ((i + 1) % ids.length) 0 = s :=
      hall _ (getD_mem_of_lt ids _ 0 hlt)
    simp only [rrLoopFuel, heq, ne_eq, not_true_eq_false, if_false]
    exact ih _

theorem rrLoopFuel_hits (ids : List Nat) (s k0 : Nat)
    (hk : k0 < ids.length) (hk0 : ids.getD k0 0 ≠ s) :
    ∀ d i fuel, (i + 1 + d) % ids.length = k0 → d < fuel →
      ∃ r i2, rrLoopFuel fuel ids s i = some (r, i2) ∧ r ∈ ids ∧ r ≠ s := by
  intro d
  induction d with
  | zero =>
    intro i fuel hmod hfuel
    cases fuel with
    | zero => omega
    | succ f =>
      have h2 : (i + 1) % ids.length = k0 := by simpa using hmod
      refine ⟨ids.getD ((i + 1) % ids.length) 0, (i + 1) % ids.length, ?_, ?_, ?_⟩
      · simp only [rrLoopFuel]
        rw [if_pos (by rw [h2]; exact hk0)]
      · exact getD_mem_of_lt ids _ 0 (by rw [h2]; exact hk)
      · rw [h2]; exact hk0
  | succ dd ih =>
    intro i fuel hmod hfuel
    cases fuel with
    | zero => omega
    | succ f =>
      by_cases hcase : ids.getD ((i + 1) % ids.length) 0 ≠ s
      · refine ⟨ids.getD ((i + 1) % ids.length) 0, (i + 1) % ids.length, ?_, ?_, hcase⟩
        · simp only [rrLoopFuel]
          rw [if_pos hcase]
        · have hlen : 0 < ids.length := by
            rcases Nat.eq_zero_or_pos ids.length with h0 | h0
            · rw [h0] at hk; omega
            · exact h0
          exact getD_mem_of_lt ids _ 0 (Nat.mod_lt _ hlen)
      · simp only [rrLoopFuel, if_neg hcase]
        have hnext : ((i + 1) % ids.length + 1 + dd) % ids.length = k0 := by
          rw [Nat.add_assoc, Nat.mod_add_mod]
          rw [show i + 1 + (1 + dd) = i + 1 + (dd + 1) from by omega]
          exact hmod
        exact ih _ f hnext (by omega)

theorem rrLoop_term (ids : List Nat) (s j : Nat) (hj : j ∈ ids) (hjs : j ≠ s) :
    ∀ i, ∃ r i2, rrLoopFuel ids.length ids s i = some (r, i2) ∧ r ∈ ids ∧ r ≠ s := by
  intro i
  obtain ⟨⟨k0, hk⟩, hget⟩ := List.mem_iff_get.mp hj
  have hlen : 0 < ids.length := by omega
  have hk0 : ids.getD k0 0 ≠ s := by
    rw [getD_of_lt ids k0 0 hk, hget]
    exact hjs
  have hr : (i + 1) % ids.length < ids.length := Nat.mod_lt _ hlen
  refine rrLoopFuel_hits ids s k0 hk hk0
    ((k0 + ids.length - (i + 1) % ids.length) % ids.length) i ids.length ?_
    (Nat.mod_lt _ hlen)
  rw [← Nat.mod_add_mod, Nat.add_mod_mod]
  rw [show (i + 1) % ids.length + (k0 + ids.length - (i + 1) % ids.length)
      = k0 + ids.length from by omega]
  rw [Nat.add_mod_right]
  exact Nat.mod_eq_of_lt hk

/-- C9: the placement loop of the config handler terminates exactly when the
id list holds an id other than self, and then within one pass (list-length
many iterations) from any starting index; with the introducer present and
distinct from self, the fan-out sends exactly one store=true image message
per local hash. -/
theorem C9_round_robin (ids : List Nat) (s : Nat) (hs : s ∈ ids) :
    ((∃ j ∈ ids, j ≠ s) → ∀ i, ∃ r i2,
        rrLoopFuel ids.length ids s i = some (r, i2) ∧ r ∈ ids ∧ r ≠ s) ∧
    ((∀ j ∈ ids, j = s) → ∀ fuel i, rrLoopFuel fuel ids s i = none) ∧
    (∀ introId, introId ∈ ids → introId ≠ s →
      ∀ (fname : Nat → Nat) (hashes : List Nat) (i : Nat),
        ∃ effs, distributeImages ids.length ids s fname hashes i = some effs ∧
          effs.length = hashes.length ∧
          ∀ e ∈ effs, ∃ r h, e = Effect.sendImage r h (fname h) true ∧
            r ∈ ids ∧ r ≠ s) := by
  refine ⟨?_, ?_, ?_⟩
  · rintro ⟨j, hj, hjs⟩ i
    exact rrLoop_term ids s j hj hjs i
  · intro hall fuel i
    exact rrLoopFuel_none_of_all_self ids s hall (List.ne_nil_of_mem hs) fuel i
  · intro introId hintro hintroself fname hashes
    induction hashes with
    | nil => exact fun i => ⟨[], rfl, rfl, by simp⟩
    | cons h t ih =>
      intro i
      obtain ⟨r, i2, hrr, hrmem, hrs⟩ := rrLoop_term ids s introId hintro hintroself i
      obtain ⟨effs, heffs, hlen, hmem⟩ := ih i2
      refine ⟨Effect.sendImage r h (fname h) true :: effs, ?_, by simp [hlen], ?_⟩
      · simp only [distributeImages, hrr, heffs]
        rfl
      · intro e he
        rcases List.mem_cons.mp he with rfl | he2
        · exact ⟨r, h, rfl, hrmem, hrs⟩
        · exact hmem e he2

/-- Witness for C9: two surviving ids, self is 3, introducer 2. -/
theorem C9_round_robin_w :
    ∃ effs, distributeImages 2 [2, 3] 3 (fun h => h) [7, 8] 0 = some effs ∧
      effs.length = 2 ∧
      ∀ e ∈ effs, ∃ r h,
        e = Effect.sendImage r h ((fun hh => hh) h) true ∧ r ∈ [2, 3] ∧ r ≠ 3 :=
  (C9_round_robin [2, 3] 3 (by decide)).2.2 2 (by decide) (by decide)
    (fun h => h) [7, 8] 0

theorem lexLe_total (a b : Nat × Nat) : lexLe a b = true ∨ lexLe b a = true := by
  simp only [lexLe, Bool.or_eq_true, Bool.and_eq_true, decide_eq_true_eq,
    beq_iff_eq]
  omega

theorem lexLe_trans (a b c : Nat × Nat) (h1 : lexLe a b = true)
    (h2 : lexLe b c = true) : lexLe a c = true := by
  simp only [lexLe, Bool.or_eq_true, Bool.and_eq_true, decide_eq_true_eq,
    beq_iff_eq] at h1 h2 ⊢
  omega

theorem mem_insLex (x a : Nat × Nat) (l : List (Nat × Nat)) :
    x ∈ insLex a l ↔ x = a ∨ x ∈ l := by
  induction l with
  | nil => simp [insLex]
  | cons b t ih =>
    by_cases h : lexLe a b = true
    · simp [insLex, h]
    · simp [insLex, h, ih]
      tauto

theorem perm_insLex (a : Nat × Nat) (l : List (Nat × Nat)) :
    (insLex a l).Perm (a :: l) := by
  induction l with
  | nil => simp [insLex]
  | cons b t ih =>
    by_cases h : lexLe a b = true
    · simp [insLex, h]
    · simp only [insLex, h, Bool.false_eq_true, if_false]
      exact (ih.cons b).trans (List.Perm.swap a b t)

theorem perm_sortLex (l : List (Nat × Nat)) : (sortLex l).Perm l := by
  induction l with
  | nil => simp [sortLex]
  | cons a t ih =>
    simp only [sortLex, List.foldr_cons]
    exact (perm_insLex a _).trans (ih.cons a)

theorem pairwise_insLex (a : Nat × Nat) (l : List (Nat × Nat))
    (hl : l.Pairwise (fun x y => lexLe x y = true)) :
    (insLex a l).Pairwise (fun x y => lexLe x y = true) := by
  induction l with
  | nil => simp [insLex]
  | cons b t ih =>
    rcases hl with _ | ⟨hb, ht⟩
    by_cases h : lexLe a b = true
    · simp only [insLex, h, if_true]
      refine List.Pairwise.cons ?_ (List.Pairwise.cons hb ht)
      intro x hx
      rcases List.mem_cons.mp hx with rfl | hx2
      · exact h
      · exact lexLe_trans a b x h (hb x hx2)
    · simp only [insLex, h, Bool.false_eq_true, if_false]
      refine List.Pairwise.cons ?_ (ih ht)
      intro x hx
      rcases (mem_insLex x a t).mp hx with hxa | hx2
      · rw [hxa]
        rcases lexLe_total a b with h1 | h1
        · exact absurd h1 h
        · exact h1
      · exact hb x hx2

theorem pairwise_sortLex (l : List (Nat × Nat)) :
    (sortLex l).Pairwise (fun x y => lexLe x y = true) := by
  induction l with
  | nil => simp [sortLex]
  | cons a t ih =>
    simp only [sortLex, List.foldr_cons]
    exact pairwise_insLex a _ ih

theorem sortIds_perm (c : Catalog) : (sortIds c).Perm (getIds c) := by
  unfold sortIds
  have hp := (perm_sortLex ((getIds c).map (fun id => (getSizeD c id, id)))).map
    Prod.snd
  have h2 : List.map Prod.snd ((getIds c).map (fun id => (getSizeD c id, id)))
      = getIds c := by
    rw [List.map_map]
    exact List.map_id _
  rw [h2] at hp
  exact hp

theorem sortIds_pairs (c : Catalog) :
    (sortIds c).map (fun id => (getSizeD c id, id)) =
      sortLex ((getIds c).map (fun id => (getSizeD c id, id))) := by
  unfold sortIds
  rw [List.map_map]
  have hmem : ∀ p ∈ sortLex ((getIds c).map (fun id => (getSizeD c id, id))),
      ((fun id => (getSizeD c id, id)) ∘ Prod.snd) p = p := by
    intro p hp
    have hp2 : p ∈ (getIds c).map (fun id => (getSizeD c id, id)) :=
      ((perm_sortLex _).mem_iff).mp hp
    obtain ⟨id, hid, hpe⟩ := List.mem_map.mp hp2
    rw [← hpe]
    rfl
  calc (sortLex ((getIds c).map (fun id => (getSizeD c id, id)))).map
        ((fun id => (getSizeD c id, id)) ∘ Prod.snd)
      = (sortLex ((getIds c).map (fun id => (getSizeD c id, id)))).map
        (fun p => p) := List.map_congr_left hmem
    _ = sortLex ((getIds c).map (fun id => (getSizeD c id, id))) := List.map_id _

/-- C1: the crash handler orders surviving peers by (folder size ascending,
id ascending); a sole survivor only prunes its catalog and stops; a survivor
that is not first in that order also only prunes its catalog and sends no
messages; and the ordering is a function of the catalog alone, so identical
catalog views give the same election everywhere. -/
theorem C1_crash_election (s : DState) (d : Nat) (ed : Entry)
    (hd : getA s.net d = some ed) :
    (sortIds (popA s.net d)).Perm (getIds (popA s.net d)) ∧
    ((sortIds (popA s.net d)).map
      (fun id => (getSizeD (popA s.net d) id, id))).Pairwise
      (fun x y => lexLe x y = true) ∧
    ((sortIds (popA s.net d)).length = 1 →
      crashHandler s d = some ({ s with net := popA s.net d }, [])) ∧
    (∀ iD iB rest, sortIds (popA s.net d) = iD :: iB :: rest → s.selfId ≠ iD →
      crashHandler s d = some ({ s with net := popA s.net d }, [])) ∧
    (∀ s2 : DState, s2.net = s.net →
      sortIds (popA s2.net d) = sortIds (popA s.net d)) := by
  refine ⟨sortIds_perm _, by rw [sortIds_pairs]; exact pairwise_sortLex _,
    ?_, ?_, ?_⟩
  · intro hlen
    unfold crashHandler
    rw [hd]
    simp only [hlen, if_pos]
  · intro iD iB rest hsort hne
    unfold crashHandler
    rw [hd]
    simp only [hsort]
    have hlen2 : (iD :: iB :: rest).length ≠ 1 := by simp
    rw [if_neg hlen2, if_pos hne]
  · intro s2 h2
    rw [h2]

/-- Witness for C1: a non-designated survivor (self id 2 with the larger
folder) prunes its catalog and sends nothing. -/
theorem C1_crash_election_w :
    crashHandler
      { selfId := 2,
        net := [(1, { addr := [], hashes := [], size := 0 }),
                (2, { addr := [], hashes := [], size := 5 }),
                (3, { addr := [], hashes := [10], size := 7 })],
        image := [], ownRequest := [], clientRequest := [] } 3 =
      some ({ selfId := 2,
              net := popA
                [(1, { addr := [], hashes := [], size := 0 }),
                 (2, { addr := [], hashes := [], size := 5 }),
                 (3, { addr := [], hashes := [10], size := 7 })] 3,
              image := [], ownRequest := [], clientRequest := [] }, []) :=
  (C1_crash_election
    { selfId := 2,
      net := [(1, { addr := [], hashes := [], size := 0 }),
              (2, { addr := [], hashes := [], size := 5 }),
              (3, { addr := [], hashes := [10], size := 7 })],
      image := [], ownRequest := [], clientRequest := [] } 3
    { addr := [], hashes := [10], size := 7 } rfl).2.2.2.1 1 2 []
    (by decide) (by decide)

/-- C2 counterexample: before the crash of peer 3 every catalog entry holds
hash 10. The designated recoverer (peer 1, itself a holder) is found first
by the hash lookup, so although the surviving entry of peer 2 (another peer)
also contains the hash, the recoverer sends the image to the backup instead
of adding the hash to its outstanding set and requesting it from peer 2 as
the claim as stated requires. -/
theorem C2_counterexample :
    crashHandler stateC2 3 =
      some (stateC2After, [Effect.sendImage 2 10 42 true]) ∧
    10 ∈ getHashesD (popA stateC2.net 3) 2 ∧
    (2 : Nat) ≠ stateC2.selfId ∧
    Effect.reqImage 2 10 ∉ [Effect.sendImage 2 10 42 true] ∧
    10 ∉ stateC2After.ownRequest := by
  decide

theorem recoverEffect_eq (net2 : Catalog) (si iB : Nat) (im : List (Nat × Nat))
    (h : Nat) :
    recoverEffect net2 si iB im h =
      match getIdByHash net2 h with
      | some ow =>
        if ow ≠ si then [Effect.reqImage ow h]
        else [Effect.sendImage iB h ((getA im h).getD 0) true]
      | none => [] := by
  unfold recoverEffect crashStep
  cases getIdByHash net2 h with
  | none => rfl
  | some ow => by_cases how : ow ≠ si <;> simp [how]

theorem crashFold_mem_eff (net2 : Catalog) (si iB : Nat) (im : List (Nat × Nat))
    (l : List Nat) (acc : List Nat × List Effect) (e : Effect) :
    e ∈ (l.foldl (crashStep net2 si iB im) acc).2 ↔
      e ∈ acc.2 ∨ ∃ h ∈ l, e ∈ recoverEffect net2 si iB im h := by
  induction l generalizing acc with
  | nil => simp
  | cons b t ih =>
    simp only [List.foldl_cons]
    rw [ih]
    have hstep : (crashStep net2 si iB im acc b).2 =
        acc.2 ++ recoverEffect net2 si iB im b := by
      rw [recoverEffect_eq]
      unfold crashStep
      cases getIdByHash net2 b with
      | none => simp
      | some ow =>
        dsimp only
        by_cases how : ow ≠ si
        · rw [if_pos how, if_pos how]
        · rw [if_neg how, if_neg how]
    rw [hstep]
    simp only [List.mem_append, List.mem_cons]
    constructor
    · rintro ((he | he) | ⟨h, hh, hhe⟩)
      · exact Or.inl he
      · exact Or.inr ⟨b, Or.inl rfl, he⟩
      · exact Or.inr ⟨h, Or.inr hh, hhe⟩
    · rintro (he | ⟨h, hbt, hhe⟩)
      · exact Or.inl (Or.inl he)
      · rcases hbt with rfl | hh
        · exact Or.inl (Or.inr hhe)
        · exact Or.inr ⟨h, hh, hhe⟩

theorem crashFold_mem_own (net2 : Catalog) (si iB : Nat) (im : List (Nat × Nat))
    (l : List Nat) (acc : List Nat × List Effect) (x : Nat) :
    x ∈ (l.foldl (crashStep net2 si iB im) acc).1 ↔
      x ∈ acc.1 ∨ (x ∈ l ∧ ∃ ow, getIdByHash net2 x = some ow ∧ ow ≠ si) := by
  induction l generalizing acc with
  | nil => simp
  | cons b t ih =>
    simp only [List.foldl_cons]
    rw [ih]
    have hstep : x ∈ (crashStep net2 si iB im acc b).1 ↔
        x ∈ acc.1 ∨ (x = b ∧ ∃ ow, getIdByHash net2 b = some ow ∧ ow ≠ si) := by
      unfold crashStep
      cases hlook : getIdByHash net2 b with
      | none => simp
      | some ow =>
        dsimp only
        by_cases how : ow ≠ si
        · rw [if_pos how]
          show x ∈ insSet b acc.1 ↔ _
          rw [mem_insSet]
          constructor
          · rintro (rfl | hx)
            · exact Or.inr ⟨rfl, ow, rfl, how⟩
            · exact Or.inl hx
          · rintro (hx | ⟨rfl, _⟩)
            · exact Or.inr hx
            · exact Or.inl rfl
        · rw [if_neg how]
          constructor
          · intro hx
            exact Or.inl hx
          · rintro (hx | ⟨rfl, ow2, how2, hne2⟩)
            · exact hx
            · rw [Option.some.injEq] at how2
              exact absurd (how2 ▸ hne2) (by simpa using how)
    rw [hstep]
    constructor
    · rintro ((hx | ⟨rfl, hP⟩) | ⟨hxt, hP⟩)
      · exact Or.inl hx
      · exact Or.inr ⟨List.mem_cons_self _ _, hP⟩
      · exact Or.inr ⟨List.mem_cons_of_mem _ hxt, hP⟩
    · rintro (hx | ⟨hxbt, hP⟩)
      · exact Or.inl (Or.inl hx)
      · rcases List.mem_cons.mp hxbt with rfl | hxt
        · exact Or.inl (Or.inr ⟨rfl, hP⟩)
        · exact Or.inr ⟨hxt, hP⟩

/-- C2 (amended): for each hash in the crashed peer's snapshot, the branch
taken is decided by the owner the catalog hash lookup finds (the first
record in set-iteration order containing the hash): a non-self owner yields
an outstanding-set insertion and a request_image to that owner; owner self
yields an image with store=true to the backup peer; no owner yields no
message for that hash and leaves it outside the outstanding set. -/
theorem C2_recovery_per_hash (s : DState) (d : Nat) (ed : Entry)
    (hd : getA s.net d = some ed) (iD iB : Nat) (rest : List Nat)
    (hsort : sortIds (popA s.net d) = iD :: iB :: rest)
    (hself : s.selfId = iD) (s2 : DState) (effs : List Effect)
    (hrun : crashHandler s d = some (s2, effs)) :
    ∀ h ∈ ed.hashes,
      (∀ ow, getIdByHash (popA s.net d) h = some ow → ow ≠ s.selfId →
        Effect.reqImage ow h ∈ effs ∧ h ∈ s2.ownRequest) ∧
      (getIdByHash (popA s.net d) h = some s.selfId →
        Effect.sendImage iB h ((getA s.image h).getD 0) true ∈ effs) ∧
      (getIdByHash (popA s.net d) h = none →
        (∀ e ∈ effs, effHash e ≠ some h) ∧
        (h ∉ s.ownRequest → h ∉ s2.ownRequest)) := by
  unfold crashHandler at hrun
  rw [hd] at hrun
  dsimp only at hrun
  have hlen2 : (sortIds (popA s.net d)).length ≠ 1 := by
    rw [hsort]; simp
  rw [if_neg hlen2, hsort] at hrun
  dsimp only at hrun
  rw [if_neg (by rw [hself]; simp)] at hrun
  rw [Option.some.injEq, Prod.mk.injEq] at hrun
  obtain ⟨hs2, heffs⟩ := hrun
  intro h hmemh
  refine ⟨?_, ?_, ?_⟩
  · intro ow hlook hne
    constructor
    · rw [← heffs, crashFold_mem_eff]
      refine Or.inr ⟨h, hmemh, ?_⟩
      rw [recoverEffect_eq, hlook]
      simp [hne]
    · rw [← hs2]
      show h ∈ (ed.hashes.foldl (crashStep (popA s.net d) s.selfId iB s.image)
        (s.ownRequest, [])).1
      rw [crashFold_mem_own]
      exact Or.inr ⟨hmemh, ow, hlook, hne⟩
  · intro hlook
    rw [← heffs, crashFold_mem_eff]
    refine Or.inr ⟨h, hmemh, ?_⟩
    rw [recoverEffect_eq, hlook]
    simp
  · intro hlook
    constructor
    · intro e hemem
      rw [← heffs, crashFold_mem_eff] at hemem
      rcases hemem with he | ⟨h2, hh2, he2⟩
      · simp at he
      · rw [recoverEffect_eq] at he2
        cases hlook2 : getIdByHash (popA s.net d) h2 with
        | none => rw [hlook2] at he2; simp at he2
        | some ow2 =>
          rw [hlook2] at he2
          dsimp only at he2
          have hne2 : h2 ≠ h := by
            intro hcc
            rw [hcc] at hlook2
            rw [hlook2] at hlook
            exact Option.noConfusion hlook
          by_cases how2 : ow2 ≠ s.selfId
          · rw [if_pos how2] at he2
            rcases List.mem_singleton.mp he2 with rfl
            simpa [effHash] using hne2
          · rw [if_neg how2] at he2
            rcases List.mem_singleton.mp he2 with rfl
            simpa [effHash] using hne2
    · intro hno
      rw [← hs2]
      show h ∉ (ed.hashes.foldl (crashStep (popA s.net d) s.selfId iB s.image)
        (s.ownRequest, [])).1
      rw [crashFold_mem_own]
      rintro (hx | ⟨_, ow, howlook, _⟩)
      · exact hno hx
      · rw [hlook] at howlook
        exact Option.noConfusion howlook

/-- Witness for C2: the designated peer 1 requests hash 20 from its only
surviving holder, peer 2, and records it as outstanding. -/
theorem C2_recovery_per_hash_w :
    Effect.reqImage 2 20 ∈ [Effect.reqImage 2 20] ∧
    20 ∈ ({ selfId := 1,
            net := [(1, { addr := [], hashes := [], size := 0 }),
                    (2, { addr := [], hashes := [20], size := 5 })],
            image := [], ownRequest := [20], clientRequest := [] } :
          DState).ownRequest :=
  ((C2_recovery_per_hash
    { selfId := 1,
      net := [(1, { addr := [], hashes := [], size := 0 }),
              (2, { addr := [], hashes := [20], size := 5 }),
              (3, { addr := [], hashes := [20], size := 7 })],
      image := [], ownRequest := [], clientRequest := [] }
    3 { addr := [], hashes := [20], size := 7 } rfl 1 2 [] (by decide) rfl
    { selfId := 1,
      net := [(1, { addr := [], hashes := [], size := 0 }),
              (2, { addr := [], hashes := [20], size := 5 })],
      image := [], ownRequest := [20], clientRequest := [] }
    [Effect.reqImage 2 20] (by decide)) 20 (by decide)).1 2 (by decide) (by decide)

/-- C3: an incoming image is admitted (stored, self hash set extended,
outstanding request discarded, update broadcast to every other peer) exactly
when its hash is outstanding or its store flag is set; otherwise the image
store, the self catalog record, and the outstanding set are unchanged and no
update is sent. -/
theorem C3_image_admission (s : DState) (mH mF : Nat) (mSt : Bool) (ns : Nat) :
    ((mH ∈ s.ownRequest ∨ mSt = true) →
      (handleImage s mH mF mSt ns).1.image = setA s.image mH mF ∧
      (∀ x, x ∈ getHashesD (handleImage s mH mF mSt ns).1.net s.selfId ↔
        x = mH ∨ x ∈ getHashesD s.net s.selfId) ∧
      (handleImage s mH mF mSt ns).1.ownRequest = eraseS mH s.ownRequest ∧
      (∀ id ∈ getIds (handleImage s mH mF mSt ns).1.net, id ≠ s.selfId →
        Effect.sendUpdate id s.selfId
          [(s.selfId,
            ⟨none, some [mH],
              some (getSizeD (handleImage s mH mF mSt ns).1.net s.selfId)⟩)]
          ∈ (handleImage s mH mF mSt ns).2)) ∧
    (¬(mH ∈ s.ownRequest ∨ mSt = true) →
      (handleImage s mH mF mSt ns).1 = s ∧
      (∀ dst fid add, Effect.sendUpdate dst fid add ∉
        (handleImage s mH mF mSt ns).2)) := by
  constructor
  · intro hcond
    unfold handleImage
    rw [if_pos hcond]
    dsimp only
    refine ⟨rfl, ?_, rfl, ?_⟩
    · intro x
      show x ∈ getHashesD (addHash (setSize s.net s.selfId ns) s.selfId mH)
        s.selfId ↔ _
      rw [getHashesD_addHash_self, getHashesD_setSize_self, mem_insSet]
    · intro id hid hne
      apply List.mem_append_right
      apply List.mem_map.mpr
      refine ⟨id, ?_, rfl⟩
      apply List.mem_filter.mpr
      exact ⟨hid, by simpa using hne⟩
  · intro hcond
    unfold handleImage
    rw [if_neg hcond]
    refine ⟨rfl, ?_⟩
    intro dst fid add hmem
    rcases List.mem_filterMap.mp hmem with ⟨p, hp, hpe⟩
    by_cases hP : p.2 = mH
    · rw [if_pos hP] at hpe
      simp at hpe
    · rw [if_neg hP] at hpe
      exact Option.noConfusion hpe

/-- Witness for C3: an outstanding hash arriving with store=false is
admitted and broadcast to the one other peer. -/
theorem C3_image_admission_w :
    (handleImage
      { selfId := 1,
        net := [(1, { addr := [], hashes := [], size := 0 }),
                (2, { addr := [], hashes := [], size := 0 })],
        image := [], ownRequest := [4], clientRequest := [] } 4 9 false 3).1.image
      = setA [] 4 9 ∧
    (∀ x, x ∈ getHashesD (handleImage
      { selfId := 1,
        net := [(1, { addr := [], hashes := [], size := 0 }),
                (2, { addr := [], hashes := [], size := 0 })],
        image := [], ownRequest := [4], clientRequest := [] } 4 9 false 3).1.net 1 ↔
      x = 4 ∨ x ∈ getHashesD
        [(1, { addr := [], hashes := [], size := 0 }),
         (2, { addr := [], hashes := [], size := 0 })] 1) ∧
    (handleImage
      { selfId := 1,
        net := [(1, { addr := [], hashes := [], size := 0 }),
                (2, { addr := [], hashes := [], size := 0 })],
        image := [], ownRequest := [4], clientRequest := [] } 4 9 false 3).1.ownRequest
      = eraseS 4 [4] ∧
    (∀ id ∈ getIds (handleImage
      { selfId := 1,
        net := [(1, { addr := [], hashes := [], size := 0 }),
                (2, { addr := [], hashes := [], size := 0 })],
        image := [], ownRequest := [4], clientRequest := [] } 4 9 false 3).1.net,
      id ≠ 1 →
      Effect.sendUpdate id 1
        [(1,
          ⟨none, some [4],
            some (getSizeD (handleImage
              { selfId := 1,
                net := [(1, { addr := [], hashes := [], size := 0 }),
                        (2, { addr := [], hashes := [], size := 0 })],
                image := [], ownRequest := [4], clientRequest := [] }
              4 9 false 3).1.net 1)⟩)]
        ∈ (handleImage
          { selfId := 1,
            net := [(1, { addr := [], hashes := [], size := 0 }),
                    (2, { addr := [], hashes := [], size := 0 })],
            image := [], ownRequest := [4], clientRequest := [] } 4 9 false 3).2) :=
  (C3_image_admission
    { selfId := 1,
      net := [(1, { addr := [], hashes := [], size := 0 }),
              (2, { addr := [], hashes := [], size := 0 })],
      image := [], ownRequest := [4], clientRequest := [] } 4 9 false 3).1
    (Or.inl (by decide))

theorem addAllS_addAllS (H A : List Nat) (hc : canonS H) :
    addAllS (addAllS H A) A = addAllS H A := by
  apply canonS_ext _ _ (canonS_addAllS _ _ (canonS_addAllS _ _ hc))
    (canonS_addAllS _ _ hc)
  intro x
  simp only [mem_addAllS]
  tauto

theorem rem_add_idem (H A R : List Nat) (hc : canonS H) :
    removeAllS (addAllS (removeAllS (addAllS H A) R) A) R =
      removeAllS (addAllS H A) R := by
  apply canonS_ext _ _
    (canonS_removeAllS _ _ (canonS_addAllS _ _ (canonS_removeAllS _ _
      (canonS_addAllS _ _ hc))))
    (canonS_removeAllS _ _ (canonS_addAllS _ _ hc))
  intro x
  simp only [mem_removeAllS, mem_addAllS]
  tauto

theorem addDeltaOpt_getD (o : Option Entry) (aO : Option Delta) :
    (addDeltaOpt o aO).getD defaultEntry =
      { addr :=
          match aO with
          | some a =>
            match a.addr with
            | some x => x
            | none => (o.getD defaultEntry).addr
          | none => (o.getD defaultEntry).addr,
        hashes :=
          addAllS (o.getD defaultEntry).hashes
            (match aO with
             | some a => (a.hashes).getD []
             | none => []),
        size :=
          match aO with
          | some a =>
            match a.size with
            | some n => n
            | none => (o.getD defaultEntry).size
          | none => (o.getD defaultEntry).size } := by
  cases aO with
  | none => rfl
  | some a =>
    obtain ⟨aa, ah, asz⟩ := a
    cases o <;> cases aa <;> rcases ah with _ | ⟨_ | ⟨h0, t0⟩⟩ <;> cases asz <;> rfl

theorem addDeltaOpt_none (o : Option Entry) (aO : Option Delta)
    (h : addDeltaOpt o aO = none) : o = none := by
  cases aO with
  | none => exact h
  | some a =>
    obtain ⟨aa, ah, asz⟩ := a
    cases o with
    | none => rfl
    | some e =>
      exfalso
      cases aa <;> rcases ah with _ | ⟨_ | ⟨h0, t0⟩⟩ <;> cases asz <;>
        simp [addDeltaOpt, addDeltaE] at h

theorem addDeltaOpt_some (e : Entry) (aO : Option Delta) :
    addDeltaOpt (some e) aO =
      some ((addDeltaOpt (some e) aO).getD defaultEntry) := by
  cases aO with
  | none => rfl
  | some a =>
    obtain ⟨aa, ah, asz⟩ := a
    cases aa <;> rcases ah with _ | ⟨_ | ⟨h0, t0⟩⟩ <;> cases asz <;> rfl

theorem remDeltaE_some_char (e : Entry) (r : Delta) :
    remDeltaE (some e) r = some (some
      { addr := match r.addr with | some _ => [] | none => e.addr,
        hashes := removeAllS e.hashes ((r.hashes).getD []),
        size := match r.size with | some _ => 0 | none => e.size }) := by
  obtain ⟨ra, rh, rs⟩ := r
  cases ra <;> rcases rh with _ | ⟨_ | ⟨h0, t0⟩⟩ <;> cases rs <;> rfl

theorem remDeltaE_char (o : Option Entry) (r : Delta) (o2 : Option Entry)
    (h : remDeltaE o r = some o2) :
    o2.getD defaultEntry =
      { addr := match r.addr with
          | some _ => []
          | none => (o.getD defaultEntry).addr,
        hashes := removeAllS (o.getD defaultEntry).hashes ((r.hashes).getD []),
        size := match r.size with
          | some _ => 0
          | none => (o.getD defaultEntry).size } ∧
    (o2 = none → o = none) := by
  cases o with
  | some e =>
    rw [remDeltaE_some_char] at h
    rw [Option.some.injEq] at h
    subst h
    exact ⟨rfl, fun hh => Option.noConfusion hh⟩
  | none =>
    obtain ⟨ra, rh, rs⟩ := r
    cases ra <;> rcases rh with _ | ⟨_ | ⟨h0, t0⟩⟩ <;> cases rs <;>
      first
      | exact Option.noConfusion h
      | (injection h with h2
         subst h2
         exact ⟨rfl, fun _ => rfl⟩)

theorem addDeltaOpt_idem (o : Option Entry) (aO : Option Delta)
    (hc : canonS ((o.getD defaultEntry).hashes)) :
    addDeltaOpt (addDeltaOpt o aO) aO = addDeltaOpt o aO := by
  cases aO with
  | none => rfl
  | some a =>
    obtain ⟨aa, ah, asz⟩ := a
    cases o <;> cases aa <;> rcases ah with _ | ⟨_ | ⟨h0, t0⟩⟩ <;> cases asz <;>
      simp_all [addDeltaOpt, addDeltaE, defaultEntry, addAllS_addAllS]

theorem remAdd_idem (o : Option Entry) (aO : Option Delta) (r : Delta)
    (o1 : Option Entry) (hc : canonS ((o.getD defaultEntry).hashes))
    (h : remDeltaE (addDeltaOpt o aO) r = some o1) :
    remDeltaE (addDeltaOpt o1 aO) r = some o1 := by
  cases o1 with
  | none =>
    have hoa : addDeltaOpt o aO = none := (remDeltaE_char _ r _ h).2 rfl
    have ho : o = none := addDeltaOpt_none o aO hoa
    have hnone : addDeltaOpt (none : Option Entry) aO = none := ho ▸ hoa
    rw [hnone]
    rw [hoa] at h
    exact h
  | some e1 =>
    have hfields := (remDeltaE_char _ r _ h).1
    simp only [Option.getD_some] at hfields
    rw [addDeltaOpt_getD o aO] at hfields
    rw [addDeltaOpt_some e1 aO, remDeltaE_some_char, addDeltaOpt_getD (some e1) aO]
    simp only [Option.getD_some]
    subst hfields
    rw [Option.some.injEq, Option.some.injEq, Entry.mk.injEq]
    obtain ⟨ra, rh, rs⟩ := r
    refine ⟨?_, ?_, ?_⟩
    · rcases aO with _ | ⟨aa, ah, asz⟩
      · cases ra <;> rfl
      · cases ra <;> cases aa <;> rfl
    · exact rem_add_idem _ _ _ hc
    · rcases aO with _ | ⟨aa, ah, asz⟩
      · cases rs <;> rfl
      · cases rs <;> cases asz <;> rfl

theorem applyBoth_idem (o : Option Entry) (aO rO : Option Delta)
    (o1 : Option Entry) (hc : canonS ((o.getD defaultEntry).hashes))
    (h : applyBoth o aO rO = some o1) :
    applyBoth o1 aO rO = some o1 := by
  cases rO with
  | none =>
    unfold applyBoth at h ⊢
    rw [Option.some.injEq] at h
    subst h
    rw [addDeltaOpt_idem o aO hc]
  | some r =>
    unfold applyBoth at h ⊢
    exact remAdd_idem o aO r o1 hc h

theorem getA_eq_none_of_not_mem_keys {α : Type} (c : List (Nat × α)) (i : Nat)
    (h : i ∉ keysA c) : getA c i = none := by
  rw [mem_keysA_iff_hasA] at h
  unfold hasA at h
  exact Option.not_isSome_iff_eq_none.mp (by simpa using h)

theorem getA_setAddr_self (c : Catalog) (j : Nat) (a : List Nat) :
    getA (setAddr c j a) j =
      some { ((getA c j).getD defaultEntry) with addr := a } := by
  unfold setAddr
  rw [getA_touchA_self]

theorem getA_setAddr_ne (c : Catalog) (j i : Nat) (a : List Nat) (hne : i ≠ j) :
    getA (setAddr c j a) i = getA c i := by
  unfold setAddr
  exact getA_touchA_ne _ _ _ _ hne

theorem getA_setSize_self (c : Catalog) (j n : Nat) :
    getA (setSize c j n) j =
      some { ((getA c j).getD defaultEntry) with size := n } := by
  unfold setSize
  rw [getA_touchA_self]

theorem getA_setSize_ne (c : Catalog) (j i n : Nat) (hne : i ≠ j) :
    getA (setSize c j n) i = getA c i := by
  unfold setSize
  exact getA_touchA_ne _ _ _ _ hne

theorem getA_foldl_addHash_self (hs : List Nat) (c : Catalog) (j : Nat) :
    getA (hs.foldl (fun cc h => addHash cc j h) c) j =
      if hs = [] then getA c j
      else some { ((getA c j).getD defaultEntry) with
        hashes := addAllS ((getA c j).getD defaultEntry).hashes hs } := by
  induction hs generalizing c with
  | nil => simp
  | cons b t ih =>
    rw [if_neg (by simp)]
    simp only [List.foldl_cons]
    rw [ih (addHash c j b)]
    have hb : getA (addHash c j b) j =
        some { ((getA c j).getD defaultEntry) with
          hashes := insSet b ((getA c j).getD defaultEntry).hashes } := by
      unfold addHash
      rw [getA_touchA_self]
    by_cases ht : t = []
    · subst ht
      rw [if_pos rfl, hb]
      rfl
    · rw [if_neg ht, hb]
      simp only [Option.getD_some]
      rfl

theorem getA_foldl_addHash_ne (hs : List Nat) (c : Catalog) (j i : Nat)
    (hne : i ≠ j) :
    getA (hs.foldl (fun cc h => addHash cc j h) c) i = getA c i := by
  induction hs generalizing c with
  | nil => rfl
  | cons b t ih =>
    simp only [List.foldl_cons]
    rw [ih]
    unfold addHash
    exact getA_touchA_ne _ _ _ _ hne

theorem getA_applyAddOne_self (c : Catalog) (j : Nat) (d : Delta) :
    getA (applyAddOne c (j, d)) j = addDeltaE (getA c j) d := by
  obtain ⟨da, dh, ds⟩ := d
  unfold applyAddOne addDeltaE
  dsimp only
  cases da <;> cases dh <;> cases ds <;>
    simp [getA_setSize_self, getA_foldl_addHash_self, getA_setAddr_self]

theorem getA_applyAddOne_ne (c : Catalog) (j i : Nat) (d : Delta) (hne : i ≠ j) :
    getA (applyAddOne c (j, d)) i = getA c i := by
  obtain ⟨da, dh, ds⟩ := d
  unfold applyAddOne
  dsimp only
  cases da <;> cases dh <;> cases ds <;>
    simp [getA_setSize_ne _ _ _ _ hne, getA_foldl_addHash_ne _ _ _ _ hne,
      getA_setAddr_ne _ _ _ _ hne]

theorem applyAdds_char (add : List (Nat × Delta)) :
    ∀ (c : Catalog), (keysA add).Nodup →
      (∀ j d2, getA add j = some d2 →
        getA (applyAdds c add) j = addDeltaE (getA c j) d2) ∧
      (∀ i, getA add i = none → getA (applyAdds c add) i = getA c i) := by
  induction add with
  | nil =>
    intro c _
    refine ⟨?_, ?_⟩
    · intro j d2 hj
      simp [getA] at hj
    · intro i _
      rfl
  | cons p t ih =>
    intro c hnd
    obtain ⟨j0, d0⟩ := p
    have hnd2 := List.nodup_cons.mp (show (j0 :: keysA t).Nodup from hnd)
    have hj0 : j0 ∉ keysA t := hnd2.1
    have hndt : (keysA t).Nodup := hnd2.2
    have hstep : applyAdds c ((j0, d0) :: t) =
        applyAdds (applyAddOne c (j0, d0)) t := rfl
    constructor
    · intro j d2 hj
      rw [hstep]
      by_cases hjj : j = j0
      · subst hjj
        have hd2 : d0 = d2 := by simpa [getA] using hj
        rw [← hd2]
        rw [(ih (applyAddOne c (j, d0)) hndt).2 j
          (getA_eq_none_of_not_mem_keys t j hj0)]
        exact getA_applyAddOne_self c j d0
      · have hjt : getA t j = some d2 := by
          simpa [getA, Ne.symm hjj] using hj
        rw [(ih _ hndt).1 j d2 hjt, getA_applyAddOne_ne _ _ _ _ hjj]
    · intro i hi
      rw [hstep]
      have hsplit : j0 ≠ i ∧ getA t i = none := by
        by_cases hji : j0 = i
        · simp [getA, hji] at hi
        · exact ⟨hji, by simpa [getA, hji] using hi⟩
      rw [(ih _ hndt).2 i hsplit.2,
        getA_applyAddOne_ne _ _ _ _ (Ne.symm hsplit.1)]

theorem removeHashO_none_iff (c : Catalog) (j h : Nat) :
    removeHashO c j h = none ↔ getA c j = none := by
  unfold removeHashO modifyAO hasA
  cases getA c j <;> simp

theorem removeHashO_some_char (c : Catalog) (j h : Nat) (e : Entry)
    (he : getA c j = some e) :
    removeHashO c j h =
      some (modifyA c j (fun e2 => { e2 with hashes := eraseS h e2.hashes })) := by
  unfold removeHashO modifyAO
  rw [if_pos]
  unfold hasA
  rw [he]
  rfl

theorem modifyA_modifyA {α : Type} (c : List (Nat × α)) (j : Nat) (f g : α → α) :
    modifyA (modifyA c j f) j g = modifyA c j (fun x => g (f x)) := by
  induction c with
  | nil => rfl
  | cons p t ih =>
    obtain ⟨k, w⟩ := p
    by_cases hk : k = j
    · simp [modifyA, hk]
    · simp [modifyA, hk, ih]

theorem foldl_bind_none (hs : List Nat) (j : Nat) :
    hs.foldl (fun (ccO : Option Catalog) h =>
      ccO.bind (fun cc => removeHashO cc j h)) none = none := by
  induction hs with
  | nil => rfl
  | cons b t ih => simpa using ih

theorem foldl_removeHashO_char (hs : List Nat) (c : Catalog) (j : Nat) :
    hs.foldl (fun (ccO : Option Catalog) h =>
      ccO.bind (fun cc => removeHashO cc j h)) (some c) =
      if hs = [] then some c
      else match getA c j with
        | none => none
        | some _ => some (modifyA c j
            (fun e2 => { e2 with hashes := removeAllS e2.hashes hs })) := by
  induction hs generalizing c with
  | nil => rfl
  | cons b t ih =>
    rw [if_neg (by simp)]
    simp only [List.foldl_cons, Option.some_bind]
    cases hcj : getA c j with
    | none =>
      rw [(removeHashO_none_iff c j b).mpr hcj]
      exact foldl_bind_none t j
    | some e =>
      rw [removeHashO_some_char c j b e hcj]
      rw [ih]
      have hgc2 : getA (modifyA c j
            (fun e2 => { e2 with hashes := eraseS b e2.hashes })) j =
          some { e with hashes := eraseS b e.hashes } := by
        rw [getA_modifyA_self, hcj]
        rfl
      by_cases ht : t = []
      · subst ht
        rw [if_pos rfl]
        rfl
      · rw [if_neg ht, hgc2]
        rw [modifyA_modifyA]
        rfl

theorem applyRemOne_char (c : Catalog) (j : Nat) (d : Delta) :
    (applyRemOne c (j, d) = none ↔ remDeltaE (getA c j) d = none) ∧
    (∀ c2, applyRemOne c (j, d) = some c2 →
      remDeltaE (getA c j) d = some (getA c2 j) ∧
      ∀ i, i ≠ j → getA c2 i = getA c i) := by
  obtain ⟨ra, rh, rs⟩ := d
  have base : ∀ (c1 : Catalog) (o1 : Option Entry), getA c1 j = o1 →
      (∀ i, i ≠ j → getA c1 i = getA c i) →
      (((if rh.isSome then
          (rh.getD []).foldl (fun (ccO : Option Catalog) h =>
            ccO.bind (fun cc => removeHashO cc j h)) (some c1)
         else some c1).map
          (fun cc => if rs.isSome then setSize cc j 0 else cc)) = none
        ↔ ((if rh.isSome then
            (if rh.getD [] = [] then some o1
             else match o1 with
               | none => none
               | some e =>
                 some (some { e with hashes := removeAllS e.hashes (rh.getD []) }))
           else some o1).map
            (fun (o2 : Option Entry) =>
              if rs.isSome then some { (o2.getD defaultEntry) with size := 0 }
              else o2)) = none) ∧
      (∀ c2, ((if rh.isSome then
          (rh.getD []).foldl (fun (ccO : Option Catalog) h =>
            ccO.bind (fun cc => removeHashO cc j h)) (some c1)
         else some c1).map
          (fun cc => if rs.isSome then setSize cc j 0 else cc)) = some c2 →
        ((if rh.isSome then
            (if rh.getD [] = [] then some o1
             else match o1 with
               | none => none
               | some e =>
                 some (some { e with hashes := removeAllS e.hashes (rh.getD []) }))
           else some o1).map
            (fun (o2 : Option Entry) =>
              if rs.isSome then some { (o2.getD defaultEntry) with size := 0 }
              else o2)) = some (getA c2 j) ∧
        ∀ i, i ≠ j → getA c2 i = getA c i) := by
    intro c1 o1 h1 hne
    have tail : ∀ (cm : Catalog) (om : Option Entry), getA cm j = om →
        (∀ i, i ≠ j → getA cm i = getA c i) →
        ((some cm |>.map
            (fun cc => if rs.isSome then setSize cc j 0 else cc)) = none
          ↔ (some om |>.map
            (fun (o2 : Option Entry) =>
              if rs.isSome then some { (o2.getD defaultEntry) with size := 0 }
              else o2)) = none) ∧
        (∀ c2, (some cm |>.map
            (fun cc => if rs.isSome then setSize cc j 0 else cc)) = some c2 →
          (some om |>.map
            (fun (o2 : Option Entry) =>
              if rs.isSome then some { (o2.getD defaultEntry) with size := 0 }
              else o2)) = some (getA c2 j) ∧
          ∀ i, i ≠ j → getA c2 i = getA c i) := by
      intro cm om hm hnem
      cases rs with
      | none =>
        refine ⟨by simp, ?_⟩
        intro c2 hc2
        dsimp only [Option.map] at hc2 ⊢
        rw [if_neg (show ¬((none : Option Nat).isSome = true) from by simp)] at hc2
        rw [if_neg (show ¬((none : Option Nat).isSome = true) from by simp)]
        injection hc2 with h2
        subst h2
        exact ⟨by rw [hm], hnem⟩
      | some n =>
        refine ⟨by simp, ?_⟩
        intro c2 hc2
        dsimp only [Option.map] at hc2 ⊢
        rw [if_pos (show ((some n : Option Nat).isSome = true) from rfl)] at hc2
        rw [if_pos (show ((some n : Option Nat).isSome = true) from rfl)]
        injection hc2 with h2
        subst h2
        refine ⟨?_, ?_⟩
        · rw [getA_setSize_self, hm]
        · intro i hi
          rw [getA_setSize_ne _ _ _ _ hi]
          exact hnem i hi
    cases rh with
    | none =>
      rw [if_neg (show ¬((none : Option (List Nat)).isSome = true) from by simp),
        if_neg (show ¬((none : Option (List Nat)).isSome = true) from by simp)]
      exact tail c1 o1 h1 hne
    | some hs =>
      rw [if_pos (show (((some hs) : Option (List Nat)).isSome = true) from rfl),
        if_pos (show (((some hs) : Option (List Nat)).isSome = true) from rfl)]
      simp only [Option.getD_some]
      rcases hs with _ | ⟨h0, t0⟩
      · rw [if_pos rfl]
        exact tail c1 o1 h1 hne
      · rw [foldl_removeHashO_char, if_neg (by simp), if_neg (by simp), h1]
        cases o1 with
        | none =>
          refine ⟨by simp, ?_⟩
          intro c2 hc2
          simp at hc2
        | some e =>
          apply tail
          · rw [getA_modifyA_self, h1]
            rfl
          · intro i hi
            rw [getA_modifyA_ne _ _ _ _ hi]
            exact hne i hi
  unfold applyRemOne remDeltaE
  dsimp only
  cases ra with
  | none =>
    rw [if_neg (show ¬((none : Option (List Nat)).isSome = true) from by simp),
      if_neg (show ¬((none : Option (List Nat)).isSome = true) from by simp)]
    exact base c (getA c j) rfl (fun i hi => rfl)
  | some av =>
    rw [if_pos (show (((some av) : Option (List Nat)).isSome = true) from rfl),
      if_pos (show (((some av) : Option (List Nat)).isSome = true) from rfl)]
    exact base (setAddr c j []) (some { ((getA c j).getD defaultEntry) with
      addr := [] }) (getA_setAddr_self c j []) (fun i hi => getA_setAddr_ne c j i [] hi)

theorem applyRems_cons (c : Catalog) (p : Nat × Delta) (t : List (Nat × Delta)) :
    applyRems c (p :: t) =
      t.foldl (fun cO q => cO.bind (fun cc => applyRemOne cc q))
        (applyRemOne c p) := rfl

theorem applyRems_none_fold (t : List (Nat × Delta)) :
    t.foldl (fun cO q => cO.bind (fun cc => applyRemOne cc q)) none = none := by
  induction t with
  | nil => rfl
  | cons p t ih =>
    rw [List.foldl_cons]
    exact ih

theorem applyRems_char (rem : List (Nat × Delta)) :
    ∀ (c : Catalog), (keysA rem).Nodup →
      (applyRems c rem = none ↔
        ∃ j d2, getA rem j = some d2 ∧ remDeltaE (getA c j) d2 = none) ∧
      (∀ c2, applyRems c rem = some c2 →
        (∀ j d2, getA rem j = some d2 →
          remDeltaE (getA c j) d2 = some (getA c2 j)) ∧
        (∀ i, getA rem i = none → getA c2 i = getA c i)) := by
  induction rem with
  | nil =>
    intro c _
    refine ⟨?_, ?_⟩
    · constructor
      · intro h
        exact absurd h (by simp [applyRems])
      · rintro ⟨j, d2, hj, _⟩
        simp [getA] at hj
    · intro c2 h2
      have hc2 : c = c2 := by simpa [applyRems] using h2
      subst hc2
      exact ⟨fun j d2 hj => by simp [getA] at hj, fun i _ => rfl⟩
  | cons p t ih =>
    intro c hnd
    obtain ⟨j0, d0⟩ := p
    have hnd2 := List.nodup_cons.mp (show (j0 :: keysA t).Nodup from hnd)
    have hj0 : j0 ∉ keysA t := hnd2.1
    have hndt : (keysA t).Nodup := hnd2.2
    have hchar := applyRemOne_char c j0 d0
    constructor
    · constructor
      · intro h
        cases h0 : applyRemOne c (j0, d0) with
        | none =>
          exact ⟨j0, d0, by simp [getA], hchar.1.mp h0⟩
        | some cm =>
          rw [applyRems_cons, h0] at h
          have hmid := hchar.2 cm h0
          obtain ⟨j, d2, hjt, hrd⟩ := ((ih cm hndt).1).mp h
          have hjne : j ≠ j0 := by
            intro he
            exact hj0 (he ▸ (mem_keysA_iff_hasA t j).mpr (by simp [hasA, hjt]))
          refine ⟨j, d2, ?_, ?_⟩
          · simp [getA, Ne.symm hjne, hjt]
          · rw [← hmid.2 j hjne]
            exact hrd
      · rintro ⟨j, d2, hget, hrd⟩
        by_cases hjj : j = j0
        · subst hjj
          have hd : d0 = d2 := by simpa [getA] using hget
          rw [← hd] at hrd
          have h0 : applyRemOne c (j, d0) = none := hchar.1.mpr hrd
          rw [applyRems_cons, h0]
          exact applyRems_none_fold t
        · have hjt : getA t j = some d2 := by
            simpa [getA, Ne.symm hjj] using hget
          cases h0 : applyRemOne c (j0, d0) with
          | none =>
            rw [applyRems_cons, h0]
            exact applyRems_none_fold t
          | some cm =>
            rw [applyRems_cons, h0]
            have hmid := hchar.2 cm h0
            have : applyRems cm t = none := by
              refine ((ih cm hndt).1).mpr ⟨j, d2, hjt, ?_⟩
              rw [hmid.2 j hjj]
              exact hrd
            exact this
    · intro c2 h2
      cases h0 : applyRemOne c (j0, d0) with
      | none =>
        rw [applyRems_cons, h0, applyRems_none_fold] at h2
        exact Option.noConfusion h2
      | some cm =>
        rw [applyRems_cons, h0] at h2
        have hmid := hchar.2 cm h0
        have hrest := (ih cm hndt).2 c2 h2
        constructor
        · intro j d2 hget
          by_cases hjj : j = j0
          · subst hjj
            have hd : d0 = d2 := by simpa [getA] using hget
            have hnone : getA t j = none :=
              getA_eq_none_of_not_mem_keys t j hj0
            rw [← hd, hrest.2 j hnone]
            exact hmid.1
          · have hjt : getA t j = some d2 := by
              simpa [getA, Ne.symm hjj] using hget
            rw [← hmid.2 j hjj]
            exact hrest.1 j d2 hjt
        · intro i hget
          have hsplit : j0 ≠ i ∧ getA t i = none := by
            by_cases hji : j0 = i
            · simp [getA, hji] at hget
            · exact ⟨hji, by simpa [getA, hji] using hget⟩
          rw [hrest.2 i hsplit.2, hmid.2 i (Ne.symm hsplit.1)]

/-- C8: applying the same update message's add and remove deltas to a network
catalog a second time yields, id by id, the same catalog as the first
application (the address set, hash-set add, hash-set discard and size set are
each idempotent), and within one application the whole add map is applied
before the whole remove map, as the update branch of Daemon.action does. -/
theorem C8_update_idempotent (c c1 : Catalog) (add rem : List (Nat × Delta))
    (hwf : ∀ id e, getA c id = some e → canonS e.hashes)
    (hadd : (keysA add).Nodup) (hrem : (keysA rem).Nodup)
    (h1 : applyUpdate c add rem = some c1) :
    applyUpdate c add rem = applyRems (applyAdds c add) rem ∧
    ∃ c2, applyUpdate c1 add rem = some c2 ∧ ∀ id, getA c2 id = getA c1 id := by
  have hAdd : ∀ (cc : Catalog) (j : Nat),
      getA (applyAdds cc add) j = addDeltaOpt (getA cc j) (getA add j) := by
    intro cc j
    cases ha : getA add j with
    | none =>
      rw [(applyAdds_char add cc hadd).2 j ha]
      rfl
    | some a =>
      rw [(applyAdds_char add cc hadd).1 j a ha]
      rfl
  have hcanon : ∀ j, canonS (((getA c j).getD defaultEntry).hashes) := by
    intro j
    cases hc : getA c j with
    | none => exact List.Pairwise.nil
    | some e => simpa using hwf j e hc
  have hrem1 := (applyRems_char rem (applyAdds c add) hrem).2 c1 h1
  have hBoth : ∀ j,
      applyBoth (getA c j) (getA add j) (getA rem j) = some (getA c1 j) := by
    intro j
    cases hr : getA rem j with
    | none =>
      show some (addDeltaOpt (getA c j) (getA add j)) = some (getA c1 j)
      rw [← hAdd c j, hrem1.2 j hr]
    | some r =>
      show remDeltaE (addDeltaOpt (getA c j) (getA add j)) r = some (getA c1 j)
      rw [← hAdd c j]
      exact hrem1.1 j r hr
  have hIdem : ∀ j,
      applyBoth (getA c1 j) (getA add j) (getA rem j) = some (getA c1 j) :=
    fun j => applyBoth_idem _ _ _ _ (hcanon j) (hBoth j)
  have hchar2 := applyRems_char rem (applyAdds c1 add) hrem
  have hns : applyRems (applyAdds c1 add) rem ≠ none := by
    intro hn
    obtain ⟨j, r, hjr, hrd⟩ := hchar2.1.mp hn
    have hthis := hIdem j
    rw [hjr] at hthis
    have hthis2 : remDeltaE (addDeltaOpt (getA c1 j) (getA add j)) r =
        some (getA c1 j) := hthis
    rw [hAdd c1 j] at hrd
    rw [hrd] at hthis2
    exact Option.noConfusion hthis2
  cases hsecond : applyRems (applyAdds c1 add) rem with
  | none => exact absurd hsecond hns
  | some c2 =>
    refine ⟨rfl, c2, hsecond, ?_⟩
    have hrem2 := hchar2.2 c2 hsecond
    intro id
    have hB2 : applyBoth (getA c1 id) (getA add id) (getA rem id) =
        some (getA c2 id) := by
      cases hr : getA rem id with
      | none =>
        show some (addDeltaOpt (getA c1 id) (getA add id)) = some (getA c2 id)
        rw [← hAdd c1 id, hrem2.2 id hr]
      | some r =>
        show remDeltaE (addDeltaOpt (getA c1 id) (getA add id)) r =
          some (getA c2 id)
        rw [← hAdd c1 id]
        exact hrem2.1 id r hr
    have hfin := hIdem id
    rw [hB2] at hfin
    exact Option.some_injective _ hfin

/-- Witness for C8 at a concrete catalog and update message. -/
theorem C8_update_idempotent_w :
    applyUpdate [] [(1, ⟨some [7], some [3], some 4⟩)] [(1, ⟨none, some [3], none⟩)] =
      applyRems (applyAdds [] [(1, ⟨some [7], some [3], some 4⟩)])
        [(1, ⟨none, some [3], none⟩)] ∧
    ∃ c2, applyUpdate [(1, ⟨[7], [], 4⟩)] [(1, ⟨some [7], some [3], some 4⟩)]
        [(1, ⟨none, some [3], none⟩)] = some c2 ∧
      ∀ id, getA c2 id = getA [(1, ⟨[7], [], 4⟩)] id :=
  C8_update_idempotent [] [(1, ⟨[7], [], 4⟩)]
    [(1, ⟨some [7], some [3], some 4⟩)] [(1, ⟨none, some [3], none⟩)]
    (fun id e h => by simp [getA] at h) (by decide) (by decide) (by decide)

end DPO
